import Mathlib

/-!
# CloudBot — verification of the token-addressed batch store

A shallow embedding of the core of the CloudBot content-distribution bot
(src/bot.js and the unnamed bot variant): the durable index/batch store,
the token and naming service, the admin authoring sessions with one-shot
auto-naming, the browse-navigation position updates, the ephemeral
callback-token cache and the rating handler.

Strings are modelled as lists of characters (one entry per Unicode code
point). JavaScript objects used as dictionaries are modelled as
association lists in insertion order: assignment overwrites the value of
an existing key in place and otherwise appends, matching JS property
update semantics.
-/

namespace CloudBot
/-- Strings, modelled as lists of Unicode code points. -/
abbrev Str := List Char

/-! ## JavaScript-object dictionaries as association lists -/

/-- Lookup of a key in a JS-object dictionary. -/
def jsGet {α β : Type} [DecidableEq α] : List (α × β) → α → Option β
  | [], _ => none
  | p :: m, k => if p.1 = k then some p.2 else jsGet m k

/-- Property assignment on a JS-object dictionary: overwrite the value at an
existing key in place, otherwise append the binding at the end. -/
def jsSet {α β : Type} [DecidableEq α] (m : List (α × β)) (k : α) (v : β) : List (α × β) :=
  if k ∈ m.map Prod.fst then m.map (fun p => if p.1 = k then (k, v) else p) else m ++ [(k, v)]

/-- Property deletion on a JS-object dictionary. -/
def jsDel {α β : Type} [DecidableEq α] (m : List (α × β)) (k : α) : List (α × β) :=
  m.filter (fun p => p.1 ≠ k)

/-- The keys of a JS-object dictionary, in insertion order. -/
def keysOf {α β : Type} (m : List (α × β)) : List α := m.map Prod.fst

/-! ## Character classes and string primitives

These embed the regular-expression character classes used by the bot:
the JS whitespace class, the pictographic class of
sanitizeFilenameForDisk, and the safe filename classes. -/

/-- The JavaScript whitespace class (the set matched by the regex class
for whitespace and by String.prototype.trim). -/
def jsWhitespaceChars : Str :=
  [' ', '\t', '\n', Char.ofNat 0x0B, Char.ofNat 0x0C, '\r',
   Char.ofNat 0xA0, Char.ofNat 0x1680,
   Char.ofNat 0x2000, Char.ofNat 0x2001, Char.ofNat 0x2002, Char.ofNat 0x2003,
   Char.ofNat 0x2004, Char.ofNat 0x2005, Char.ofNat 0x2006, Char.ofNat 0x2007,
   Char.ofNat 0x2008, Char.ofNat 0x2009, Char.ofNat 0x200A,
   Char.ofNat 0x2028, Char.ofNat 0x2029, Char.ofNat 0x202F, Char.ofNat 0x205F,
   Char.ofNat 0x3000, Char.ofNat 0xFEFF]

def jsWhitespace (c : Char) : Bool := jsWhitespaceChars.contains c

/-- String.prototype.trim: drop whitespace at both ends. -/
def jsTrim (s : Str) : Str :=
  ((s.dropWhile jsWhitespace).reverse.dropWhile jsWhitespace).reverse

/-- Code points in the symbol-other general category outside the two
explicit emoji ranges of the sanitizer regexes. This enumerates the
common symbol-other blocks; the code points this repository actually
feeds through the sanitizer (emoji 1F300 to 1F9FF and miscellaneous
symbols 2600 to 26FF) are matched by the explicit ranges below, so this
approximation of the full Unicode table is exact on them. -/
def isOtherSymbolExtra (c : Char) : Bool :=
  c.toNat = 0xA9 || c.toNat = 0xAE || c.toNat = 0x2122 ||
  (0x2700 ≤ c.toNat && c.toNat ≤ 0x27BF) ||
  (0x1FA00 ≤ c.toNat && c.toNat ≤ 0x1FAFF) ||
  (0x2B00 ≤ c.toNat && c.toNat ≤ 0x2BFF)

/-- The pictographic class of sanitizeFilenameForDisk: the emoji range
1F300 to 1F9FF, the miscellaneous-symbols range 2600 to 26FF, and the
symbol-other category. -/
def isPictographic (c : Char) : Bool :=
  (0x1F300 ≤ c.toNat && c.toNat ≤ 0x1F9FF) ||
  (0x2600 ≤ c.toNat && c.toNat ≤ 0x26FF) ||
  isOtherSymbolExtra c

def isAsciiAlphanum (c : Char) : Bool :=
  ('a' ≤ c && c ≤ 'z') || ('A' ≤ c && c ≤ 'Z') || ('0' ≤ c && c ≤ '9')

/-- The retained class of sanitizeFilenameForDisk step 7: ASCII
alphanumerics, space, hyphen, underscore and dot. -/
def keepDisplayChar (c : Char) : Bool :=
  isAsciiAlphanum c || c = ' ' || c = '-' || c = '_' || c = '.'

/-- The safe class of filenameToPath: ASCII alphanumerics, hyphen,
underscore and dot (space is not safe here). -/
def isSafePathChar (c : Char) : Bool :=
  isAsciiAlphanum c || c = '-' || c = '_' || c = '.'

def isDigitChar (c : Char) : Bool := '0' ≤ c && c ≤ '9'

/-- Split on the line-break regex (a newline optionally preceded by a
carriage return); a lone carriage return does not split. -/
def splitLinesJS : Str → List Str
  | [] => [[]]
  | '\r' :: '\n' :: rest => [] :: splitLinesJS rest
  | '\n' :: rest => [] :: splitLinesJS rest
  | c :: rest =>
    match splitLinesJS rest with
    | [] => [[c]]
    | l :: ls => (c :: l) :: ls

/-- The first segment of the line-break split. -/
def firstLineJS (s : Str) : Str :=
  let seg := s.takeWhile (fun c => c ≠ '\n')
  if seg.length < s.length then
    match seg.getLast? with
    | some '\r' => seg.dropLast
    | _ => seg
  else seg

/-- Collapse each maximal whitespace run into one space (the global
whitespace-collapse replace of the sanitizer). -/
def collapseWsAux : Bool → Str → Str
  | _, [] => []
  | prevWs, c :: rest =>
    if jsWhitespace c then
      (if prevWs then [] else [' ']) ++ collapseWsAux true rest
    else c :: collapseWsAux false rest

def collapseWs (s : Str) : Str := collapseWsAux false s

/-! ## Token and naming service (bot.js lines 43 to 68) -/

/-- The fixed 36-character token alphabet of generateToken. -/
def tokenAlphabet : Str := "ABCDEFGHIJKLMNOPQRSTUVWXYZ0123456789".data

/-- generateToken: map each random byte to an alphabet character by
reduction modulo the alphabet size. The random source is modelled as a
function giving the byte at each position. -/
def generateToken (rnd : Nat → Nat) (len : Nat := 12) : Str :=
  (List.range len).map (fun i => tokenAlphabet.getD (rnd i % tokenAlphabet.length) 'A')

/-- The leading-label keywords of the sanitizer regex, in alternation
order. -/
def labelKeywords : List Str :=
  ["Movie".data, "TV Series".data, "TV".data, "Series".data, "Show".data, "🎞️".data]

/-- The label separator class: colon, hyphen, en dash, em dash. -/
def labelSepChars : Str := [':', '-', '–', '—']

/-- Try to match one label alternative at the start of the string:
the keyword (case-insensitively), optional whitespace, one separator,
optional whitespace. Returns the remainder on success. -/
def tryLabelKeyword (kw s : Str) : Option Str :=
  if (s.take kw.length).map Char.toLower = kw.map Char.toLower then
    match (s.drop kw.length).dropWhile jsWhitespace with
    | c :: rest => if labelSepChars.contains c then some (rest.dropWhile jsWhitespace) else none
    | [] => none
  else none

/-- The keyword alternation, first match wins. -/
def stripLeadingLabelFrom (s : Str) : Option Str :=
  labelKeywords.foldr (fun kw acc => (tryLabelKeyword kw s).or acc) none

/-- Step 3 of the sanitizer: the anchored label regex with its optional
movie-camera-emoji prefix; if nothing matches, the string is unchanged. -/
def stripLeadingLabel (s : Str) : Str :=
  match s with
  | c :: rest =>
    if c = '🎬' then
      match stripLeadingLabelFrom (rest.dropWhile jsWhitespace) with
      | some r => r
      | none => (stripLeadingLabelFrom s).getD s
    else (stripLeadingLabelFrom s).getD s
  | [] => s

/-- Step 4: strip a trailing bracketed four-digit year with surrounding
whitespace. -/
def stripTrailingBracketYear (s : Str) : Str :=
  match s.reverse.dropWhile jsWhitespace with
  | ']' :: d1 :: d2 :: d3 :: d4 :: '[' :: rest =>
    if isDigitChar d1 && isDigitChar d2 && isDigitChar d3 && isDigitChar d4 then
      (rest.dropWhile jsWhitespace).reverse
    else s
  | _ => s

/-- Step 5: strip a trailing dashed four-digit year with surrounding
whitespace. -/
def stripTrailingDashYear (s : Str) : Str :=
  match s.reverse.dropWhile jsWhitespace with
  | d1 :: d2 :: d3 :: d4 :: rest =>
    if isDigitChar d1 && isDigitChar d2 && isDigitChar d3 && isDigitChar d4 then
      match rest.dropWhile jsWhitespace with
      | c :: rest2 =>
        if c = '-' || c = '–' || c = '—' then (rest2.dropWhile jsWhitespace).reverse else s
      | [] => s
    else s
  | _ => s

/-- sanitizeFilenameForDisk (called sanitizeForDisplay in the design
document): the pure nine-step pipeline deriving an on-disk-safe slug
from free text, returning none when nothing remains. -/
def sanitizeFilenameForDisk (name : Str) : Option Str :=
  if name = [] then none
  else
    let s1 := jsTrim name
    let s2 := s1.dropWhile (fun c => isPictographic c || jsWhitespace c)
    let s3 := stripLeadingLabel s2
    let s4 := stripTrailingBracketYear s3
    let s5 := stripTrailingDashYear s4
    let s6 := jsTrim (s5.filter (fun c => !isPictographic c))
    let s7 := jsTrim (firstLineJS s6)
    let s8 := s7.filter keepDisplayChar
    let s9 := jsTrim (collapseWs s8)
    let s10 := if 60 < s9.length then jsTrim (s9.take 60) else s9
    if s10 = [] then none else some s10

/-- The result of the sanitizer pipeline before the final emptiness
check (used to state that the null result characterises exactly the
empty pipeline output). -/
def sanitizePipeline (name : Str) : Str :=
  let s1 := jsTrim name
  let s2 := s1.dropWhile (fun c => isPictographic c || jsWhitespace c)
  let s3 := stripLeadingLabel s2
  let s4 := stripTrailingBracketYear s3
  let s5 := stripTrailingDashYear s4
  let s6 := jsTrim (s5.filter (fun c => !isPictographic c))
  let s7 := jsTrim (firstLineJS s6)
  let s8 := s7.filter keepDisplayChar
  let s9 := jsTrim (collapseWs s8)
  if 60 < s9.length then jsTrim (s9.take 60) else s9

/-- The character substitution of filenameToPath. -/
def pathChar (c : Char) : Char := if isSafePathChar c then c else '_'

/-- filenameToPath: substitute an underscore for every character outside
the safe class and append the storage extension. -/
def filenameToPath (filename : Str) : Str :=
  filename.map pathChar ++ ".js".data

/-- Remove a final dot-extension (a dot followed by characters none of
which is a dot or slash, at the end of the name). -/
def stripExtension (fn : Str) : Str :=
  let r := fn.reverse
  let ext := r.takeWhile (fun c => c ≠ '.' && c ≠ '/')
  if ext.length = 0 then fn
  else
    match r.drop ext.length with
    | '.' :: _ => (r.drop (ext.length + 1)).reverse
    | _ => fn

/-! ## Decimal digit strings

The rename collision loop appends increasing decimal suffixes until a
free storage key is found. The facts below (value round-trip, hence
injectivity, and digit-character membership of the core decimal
printer) feed the proof that the loop always reaches a fresh key. -/

/-- The numeric value of a decimal digit string. -/
def digitsVal (ds : Str) : Nat := ds.foldl (fun a c => 10 * a + (c.toNat - 48)) 0

/-! ## Data model -/

/-- One item of a batch: the fileMeta record assembled by the message
handler (kind tag, optional caption, original name, text body, mime
type and size; the forwarded-reference source fields are omitted as no
claim concerns them). -/
structure FileMeta where
  ftype : Str
  caption : Option Str := none
  file_name : Option Str := none
  text : Option Str := none
  mime_type : Option Str := none
  size : Option Nat := none
deriving DecidableEq, Repr

/-- One rating entry: score and timestamp. -/
structure Rating where
  score : Nat
  ts : Str
deriving DecidableEq, Repr

/-- A batch record as persisted by createBatchFile / writeBatchFile. -/
structure Batch where
  token : Str
  filename : Str
  adminId : Nat
  createdAt : Str
  files : List FileMeta
  ratings : List (Nat × Rating)
  display_name : Str
deriving DecidableEq, Repr

/-- The singleton index record: token-to-filename map and the ordered
filename list. -/
structure Index where
  tokens : List (Str × Str)
  order : List Str
deriving DecidableEq, Repr

/-- A pendingBatches entry (an authoring session). -/
structure PendingBatch where
  filename : Str
  token : Str
  files : List FileMeta
  createdAt : Str
  autoNamed : Bool
deriving DecidableEq, Repr

/-- The global mutable state the claims range over: the persisted index,
the batch files on disk keyed by their storage path, and the in-memory
authoring sessions keyed by admin chat id. -/
structure St where
  idx : Index
  disk : List (Str × Batch)
  pendingBatches : List (Nat × PendingBatch)
deriving DecidableEq, Repr

/-- The empty initial state: no index record, no batch files, no
sessions (readIndex then yields the default empty index). -/
def emptySt : St := { idx := { tokens := [], order := [] }, disk := [], pendingBatches := [] }

/-! ## Durable record store operations -/

/-- readBatchFile: look up the parsed batch record at the storage path
of the given filename (none when missing). -/
def readBatchFile (disk : List (Str × Batch)) (filename : Str) : Option Batch :=
  jsGet disk (filenameToPath filename)

/-- writeBatchFile: atomically replace the record at the storage path. -/
def writeBatchFile (disk : List (Str × Batch)) (filename : Str) (obj : Batch) :
    List (Str × Batch) :=
  jsSet disk (filenameToPath filename) obj

/-- createBatchFile: build the fresh batch record and persist it;
returns the record together with the updated disk. -/
def createBatchFile (disk : List (Str × Batch)) (filename token : Str) (adminId : Nat)
    (now : Str) : Batch × List (Str × Batch) :=
  let obj : Batch :=
    { token := token, filename := filename, adminId := adminId, createdAt := now,
      files := [], ratings := [], display_name := filename }
  (obj, writeBatchFile disk filename obj)

/-- registerTokenInIndex: map the token to the filename and append the
filename to the order list unless already present. -/
def registerTokenInIndex (idx : Index) (token filename : Str) : Index :=
  { tokens := jsSet idx.tokens token filename,
    order := if filename ∈ idx.order then idx.order else idx.order ++ [filename] }

/-- Replace the first occurrence of a value in a list (the
indexOf-and-assign step of the rename index update). -/
def replaceFirst {α : Type} [DecidableEq α] : List α → α → α → List α
  | [], _, _ => []
  | x :: xs, a, b => if x = a then b :: xs else x :: replaceFirst xs a b

/-- The candidate filename tried by the rename collision loop at a given
suffix. -/
def renameCandidate (newFilenameBase token : Str) (suffix : Nat) : Str :=
  newFilenameBase ++ '_' :: token ++ '_' :: Nat.toDigits 10 suffix

/-- The collision loop: increment the suffix until the candidate storage
path is free. The fuel is one more than the number of records on disk,
which always suffices (freshRenameName_fresh below). -/
def freshRenameLoop (disk : List (Str × Batch)) (base token : Str) : Nat → Nat → Str
  | 0, i => renameCandidate base token i
  | fuel + 1, i =>
    if jsGet disk (filenameToPath (renameCandidate base token i)) = none then
      renameCandidate base token i
    else freshRenameLoop disk base token fuel (i + 1)

/-- The filename chosen by renameBatchFileOnDisk: the base suffixed with
the token if its path is free, else the first free suffixed candidate. -/
def freshRenameName (disk : List (Str × Batch)) (base token : Str) : Str :=
  let first := if base = [] then "batch_".data ++ token else base ++ '_' :: token
  if jsGet disk (filenameToPath first) = none then first
  else freshRenameLoop disk base token (disk.length + 1) 1

/-- renameBatchFileOnDisk: pick a collision-free new filename, rewrite
the batch record under it with the new display name (trimmed, at most
200 characters; an empty display argument falls back to the new
filename), unlink the old record, and update the token map and the
order list in place. Returns none (leaving the state unchanged) when
the old record cannot be read. -/
def renameBatchFileOnDisk (st : St) (oldFilename newFilenameBase token : Str)
    (displayNameFull : Str) : St × Option Str :=
  let finalNewFilename := freshRenameName st.disk newFilenameBase token
  match readBatchFile st.disk oldFilename with
  | none => (st, none)
  | some batch =>
    let batch' : Batch :=
      { batch with
        filename := finalNewFilename,
        display_name :=
          if displayNameFull = [] then finalNewFilename
          else (jsTrim displayNameFull).take 200 }
    let disk1 := jsSet st.disk (filenameToPath finalNewFilename) batch'
    let disk2 := jsDel disk1 (filenameToPath oldFilename)
    let tokens' := if token = [] then st.idx.tokens else jsSet st.idx.tokens token finalNewFilename
    let order' :=
      if oldFilename ∈ st.idx.order
      then replaceFirst st.idx.order oldFilename finalNewFilename
      else st.idx.order ++ [finalNewFilename]
    ({ idx := { tokens := tokens', order := order' }, disk := disk2,
       pendingBatches := st.pendingBatches }, some finalNewFilename)

/-! ## Authoring session manager -/

/-- The filename chosen when a batch is opened: the trimmed explicit
name when nonempty, else the provisional token-based name. -/
def chosenName (filename token : Str) : Str :=
  if jsTrim filename = [] then "batch_".data ++ token else jsTrim filename

/-- startPendingBatch: allocate the session, create the empty batch
record and register the token, all under the chosen filename. The
freshly generated token and the current time are parameters. -/
def startPendingBatch (st : St) (adminChatId : Nat) (filename token now : Str) : St :=
  let initialFilename := chosenName filename token
  let pending : PendingBatch :=
    { filename := initialFilename, token := token, files := [], createdAt := now,
      autoNamed := jsTrim filename = [] }
  let created := createBatchFile st.disk initialFilename token adminChatId now
  { idx := registerTokenInIndex st.idx token initialFilename,
    disk := created.2,
    pendingBatches := jsSet st.pendingBatches adminChatId pending }

/-- The result of name detection: the raw label line and its sanitized
slug (none when sanitization yields nothing). -/
structure DetectedName where
  rawLine : Str
  sanitized : Option Str
deriving DecidableEq, Repr

/-- The original-name fallback of detectNameFromFile: derive the label
from the file name stem. -/
def detectFromFileName (fileMeta : FileMeta) : Option DetectedName :=
  match fileMeta.file_name with
  | some fn =>
    if fn = [] then none
    else
      let raw := (jsTrim (stripExtension fn)).take 200
      some { rawLine := raw, sanitized := sanitizeFilenameForDisk raw }
  | none => none

/-- detectNameFromFile: derive the raw label from the first nonempty
caption line, else from the original file name stem. -/
def detectNameFromFile (fileMeta : FileMeta) : Option DetectedName :=
  match fileMeta.caption with
  | some cap =>
    if cap = [] then detectFromFileName fileMeta
    else
      match ((splitLinesJS cap).map jsTrim).find? (fun l => !l.isEmpty) with
      | some firstLine =>
        let raw := (jsTrim firstLine).take 200
        some { rawLine := raw, sanitized := sanitizeFilenameForDisk raw }
      | none => detectFromFileName fileMeta
  | none => detectFromFileName fileMeta

/-- The result of addFileToPending: the new state, the batch record the
handler reports on (none when no session is active), and whether the
append invoked the on-disk rename. -/
structure AddResult where
  st : St
  batch : Option Batch
  renamed : Bool
deriving DecidableEq, Repr

/-- addFileToPending: push the item into the session and the persisted
batch; on the session's first item with pending auto-naming, derive a
name from the item and rename the batch on disk (falling back to the
base "batch" when sanitization fails), then clear the pending flag. -/
def addFileToPending (st : St) (adminChatId : Nat) (fileMeta : FileMeta) (now : Str) :
    AddResult :=
  match jsGet st.pendingBatches adminChatId with
  | none => { st := st, batch := none, renamed := false }
  | some cur =>
    let curFiles := cur.files ++ [fileMeta]
    let read := match readBatchFile st.disk cur.filename with
      | some b => (b, st.disk)
      | none => createBatchFile st.disk cur.filename cur.token adminChatId now
    let b1 : Batch := { read.1 with files := read.1.files ++ [fileMeta] }
    let disk1 := writeBatchFile read.2 cur.filename b1
    let st1 : St := { st with disk := disk1 }
    if cur.autoNamed ∧ curFiles.length = 1 then
      match detectNameFromFile fileMeta with
      | some detected =>
        let newBase := detected.sanitized.getD "batch".data
        let renameRes := renameBatchFileOnDisk st1 cur.filename newBase cur.token
          (if detected.rawLine = [] then newBase else detected.rawLine)
        match renameRes.2 with
        | some fn =>
          let cur' : PendingBatch := { cur with filename := fn, files := curFiles, autoNamed := false }
          { st := { renameRes.1 with
              pendingBatches := jsSet renameRes.1.pendingBatches adminChatId cur' },
            batch := readBatchFile renameRes.1.disk fn, renamed := true }
        | none =>
          let cur' : PendingBatch := { cur with files := curFiles, autoNamed := false }
          { st := { renameRes.1 with
              pendingBatches := jsSet renameRes.1.pendingBatches adminChatId cur' },
            batch := some b1, renamed := true }
      | none =>
        let cur' : PendingBatch := { cur with files := curFiles, autoNamed := false }
        { st := { st1 with pendingBatches := jsSet st1.pendingBatches adminChatId cur' },
          batch := some b1, renamed := false }
    else
      let cur' : PendingBatch := { cur with files := curFiles }
      { st := { st1 with pendingBatches := jsSet st1.pendingBatches adminChatId cur' },
        batch := some b1, renamed := false }

/-- addFileToExistingBatch: resolve the token through the index and
append the item to that batch, with no naming logic. -/
def addFileToExistingBatch (st : St) (token : Str) (fileMeta : FileMeta) :
    St × Option Batch :=
  match jsGet st.idx.tokens token with
  | none => (st, none)
  | some filename =>
    match readBatchFile st.disk filename with
    | none => (st, none)
    | some batch =>
      let b' : Batch := { batch with files := batch.files ++ [fileMeta] }
      ({ st with disk := writeBatchFile st.disk filename b' }, some b')

/-- The doneadd finalization: drop the session; persisted records are
untouched. -/
def finalizePendingBatch (st : St) (adminChatId : Nat) : St :=
  { st with pendingBatches := jsDel st.pendingBatches adminChatId }

/-- The deletefile handler: resolve the token, unlink the batch file,
remove the token map entry and filter the filename out of the order
list. Unknown tokens leave the state unchanged. -/
def deleteFileByToken (st : St) (token : Str) : St :=
  match jsGet st.idx.tokens token with
  | none => st
  | some filename =>
    { idx := { tokens := jsDel st.idx.tokens token,
               order := st.idx.order.filter (fun f => f ≠ filename) },
      disk := jsDel st.disk (filenameToPath filename),
      pendingBatches := st.pendingBatches }

/-- The rating callback handler: resolve the token, overwrite the
calling user's ratings entry with the new score and timestamp, and
write the batch back. -/
def rateBatch (st : St) (token : Str) (userId : Nat) (score : Nat) (ts : Str) : St :=
  match jsGet st.idx.tokens token with
  | none => st
  | some filename =>
    match readBatchFile st.disk filename with
    | none => st
    | some batch =>
      let b' : Batch := { batch with ratings := jsSet batch.ratings userId { score := score, ts := ts } }
      { st with disk := writeBatchFile st.disk filename b' }

/-! ## The admin operation sequences of the index invariant -/

/-- The admin-driven operations the index invariant ranges over; the
on-disk rename happens inside the append operation (auto-naming of the
first item), as in the source. Freshly generated tokens and timestamps
are parameters of the operations. -/
inductive Op where
  | openBatch (adminChatId : Nat) (filename : Str) (token : Str) (now : Str)
  | appendItem (adminChatId : Nat) (fileMeta : FileMeta) (now : Str)
  | finalize (adminChatId : Nat)
  | deleteBatch (token : Str)
deriving DecidableEq, Repr

def stepOp (st : St) : Op → St
  | .openBatch chat name token now => startPendingBatch st chat name token now
  | .appendItem chat meta now => (addFileToPending st chat meta now).st
  | .finalize chat => finalizePendingBatch st chat
  | .deleteBatch token => deleteFileByToken st token

def runOps (ops : List Op) (st : St) : St := ops.foldl stepOp st

/-- Sanity conditions on a single operation in a given state: an opened
batch uses a nonempty token not currently in the index and a filename
neither listed in the order nor occupying a storage path on disk, and
an append happens only while the index still maps the session's token
to the session's current filename (the session's batch has not been
deleted or replaced underneath it). -/
def opValid (st : St) : Op → Prop
  | .openBatch _ name token _ =>
      token ≠ [] ∧ jsGet st.idx.tokens token = none ∧
      chosenName name token ∉ st.idx.order ∧
      jsGet st.disk (filenameToPath (chosenName name token)) = none
  | .appendItem chat _ _ =>
      ∀ cur ∈ (jsGet st.pendingBatches chat).toList,
        jsGet st.idx.tokens cur.token = some cur.filename
  | .finalize _ => True
  | .deleteBatch _ => True

instance instDecidableOpValid (st : St) (op : Op) : Decidable (opValid st op) := by
  cases op with
  | openBatch a b c d => exact inferInstanceAs (Decidable (_ ∧ _ ∧ _ ∧ _))
  | appendItem chat m now => exact inferInstanceAs (Decidable (∀ cur ∈ _, _))
  | finalize a => exact inferInstanceAs (Decidable True)
  | deleteBatch t => exact inferInstanceAs (Decidable True)

def ValidOps : List Op → St → Prop
  | [], _ => True
  | op :: ops, st => opValid st op ∧ ValidOps ops (stepOp st op)

def ValidOps.dec : (ops : List Op) → (st : St) → Decidable (ValidOps ops st)
  | [], _ => .isTrue trivial
  | op :: ops, st =>
    haveI := ValidOps.dec ops (stepOp st op)
    inferInstanceAs (Decidable (_ ∧ _))

instance (ops : List Op) (st : St) : Decidable (ValidOps ops st) := ValidOps.dec ops st

/-- The number of token-map entries whose value is the given filename. -/
def valCount (m : List (Str × Str)) (f : Str) : Nat :=
  (m.filter (fun p => p.2 = f)).length

/-- The index bijection invariant of the design document: every
filename in the order list has exactly one token mapping to it, and
every token maps to a filename occurring exactly once in the order
list. -/
def indexBijection (idx : Index) : Prop :=
  (∀ f ∈ idx.order, valCount idx.tokens f = 1) ∧
  (∀ p ∈ idx.tokens, idx.order.count p.2 = 1)

instance (idx : Index) : Decidable (indexBijection idx) :=
  inferInstanceAs (Decidable (_ ∧ _))

/-- The strengthened induction invariant: the bijection, every listed
filename having a record on disk, storage paths of listed filenames
pairwise distinct, duplicate-free dictionary keys, and nonempty session
tokens. -/
def GoodSt (st : St) : Prop :=
  indexBijection st.idx ∧
  (∀ f ∈ st.idx.order, jsGet st.disk (filenameToPath f) ≠ none) ∧
  st.idx.order.Pairwise (fun f g => filenameToPath f ≠ filenameToPath g) ∧
  (keysOf st.idx.tokens).Nodup ∧
  (keysOf st.disk).Nodup ∧
  (∀ p ∈ st.pendingBatches, (p : Nat × PendingBatch).2.token ≠ [])

/-! ## Ephemeral callback-token cache (the unnamed bot variant) -/

/-- One entry of the in-memory callback token map: the full token, its
display label, and the creation time in milliseconds. -/
structure TokenCacheEntry where
  token : Str
  display : Str
  createdAt : Nat
deriving DecidableEq, Repr

/-- The eviction age: thirty minutes in milliseconds. -/
def cacheTTL : Nat := 30 * 60 * 1000

/-- The period of the cleanup timer: ten minutes in milliseconds. -/
def sweepPeriod : Nat := 10 * 60 * 1000

/-- Storing an entry under a short key (the key itself comes from the
random short-key generator). -/
def cachePut (m : List (Str × TokenCacheEntry)) (key token display : Str) (now : Nat) :
    List (Str × TokenCacheEntry) :=
  jsSet m key { token := token, display := display, createdAt := now }

/-- Resolving a key is a plain lookup: no expiry check happens at
resolution time. -/
def cacheResolve (m : List (Str × TokenCacheEntry)) (key : Str) : Option TokenCacheEntry :=
  jsGet m key

/-- One run of the periodic cleanup at the given time: delete the
entries whose creation time lies before the cutoff. -/
def cacheSweep (m : List (Str × TokenCacheEntry)) (now : Nat) :
    List (Str × TokenCacheEntry) :=
  m.filter (fun p => ¬ (p.2.createdAt < now - cacheTTL))

/-- The firing times of the cleanup timer up to a given time: every ten
minutes from process start. -/
def sweepTimes (t : Nat) : List Nat :=
  (List.range (t / sweepPeriod)).map (fun i => (i + 1) * sweepPeriod)

/-- The cache observed at time t when one entry is stored at time t0
into the cache c: the timer firings not later than t0 happen before the
store, the remaining firings up to t after it. -/
def cacheStateAt (c : List (Str × TokenCacheEntry)) (key token display : Str)
    (t0 t : Nat) : List (Str × TokenCacheEntry) :=
  let pre := ((sweepTimes t).filter (fun s => s ≤ t0)).foldl cacheSweep c
  let stored := cachePut pre key token display t0
  ((sweepTimes t).filter (fun s => ¬ (s ≤ t0))).foldl cacheSweep stored

/-! ## Browse session navigation (the unnamed bot variant) -/

/-- The browse-left handler's position update (one step towards older
entries): increment, clamped at the end of the order snapshot. -/
def browseLeftPos (orderLen pos : Nat) : Nat := min (orderLen - 1) (pos + 1)

/-- The browse-right handler's position update (one step towards newer
entries): decrement, stopping at zero. -/
def browseRightPos (pos : Nat) : Nat := pos - 1

/-! ## The store layer on missing or corrupt records -/

/-- The physical condition of one stored record: missing, present but
unparsable (loading it throws), or present with a parsed value. -/
inductive StoredRecord (α : Type) where
  | missing
  | corrupt
  | parsed (value : α)
deriving DecidableEq, Repr

/-- readIndex: load the index record, returning the default empty index
whenever the file is missing or loading it throws. -/
def readIndex (stored : StoredRecord Index) : Index :=
  match stored with
  | .parsed idx => idx
  | _ => { tokens := [], order := [] }

/-- readBatchFile on a possibly missing or corrupt record: null rather
than a propagated error. -/
def readBatchStored (stored : StoredRecord Batch) : Option Batch :=
  match stored with
  | .parsed b => some b
  | _ => none

/-- A concrete two-rating batch used to exercise the rate handler. -/
def c10Batch : Batch :=
  { token := "TOK123456789".data, filename := "file1".data, adminId := 1,
    createdAt := "t0".data, files := [],
    ratings := [(7, { score := 2, ts := "t1".data }), (8, { score := 5, ts := "t1".data })],
    display_name := "Foo".data }

/-- A concrete state holding that batch under its registered token. -/
def c10St : St :=
  { idx := { tokens := [("TOK123456789".data, "file1".data)], order := ["file1".data] },
    disk := [(filenameToPath "file1".data, c10Batch)],
    pendingBatches := [] }

/-! ## Lemmas -/

@[simp] theorem keysOf_nil {α β : Type} : keysOf ([] : List (α × β)) = [] := rfl

@[simp] theorem keysOf_cons {α β : Type} (p : α × β) (m : List (α × β)) :
    keysOf (p :: m) = p.1 :: keysOf m := rfl

@[simp] theorem keysOf_append {α β : Type} (m m' : List (α × β)) :
    keysOf (m ++ m') = keysOf m ++ keysOf m' := by
  simp [keysOf]

@[simp] theorem jsGet_nil {α β : Type} [DecidableEq α] (k : α) :
    jsGet ([] : List (α × β)) k = none := rfl

@[simp] theorem jsGet_cons {α β : Type} [DecidableEq α] (p : α × β) (m : List (α × β)) (k : α) :
    jsGet (p :: m) k = if p.1 = k then some p.2 else jsGet m k := rfl

theorem jsGet_append {α β : Type} [DecidableEq α] (m m' : List (α × β)) (k : α) :
    jsGet (m ++ m') k = (jsGet m k).or (jsGet m' k) := by
  induction m with
  | nil => simp
  | cons p m ih =>
    by_cases h : p.1 = k <;> simp [h, ih]

theorem jsGet_eq_none_iff {α β : Type} [DecidableEq α] (m : List (α × β)) (k : α) :
    jsGet m k = none ↔ k ∉ keysOf m := by
  induction m with
  | nil => simp
  | cons p m ih =>
    rw [jsGet_cons, keysOf_cons]
    by_cases h : p.1 = k
    · subst h
      simp
    · have h' : ¬ (k = p.1) := fun hh => h hh.symm
      simp [h, h', ih]

theorem jsGet_isSome_iff {α β : Type} [DecidableEq α] (m : List (α × β)) (k : α) :
    (jsGet m k).isSome ↔ k ∈ keysOf m := by
  rw [Option.isSome_iff_ne_none, ne_eq, jsGet_eq_none_iff]
  exact not_not

theorem mem_of_jsGet_eq_some {α β : Type} [DecidableEq α] {m : List (α × β)} {k : α} {v : β}
    (h : jsGet m k = some v) : (k, v) ∈ m := by
  induction m with
  | nil => simp [jsGet] at h
  | cons p m ih =>
    by_cases hk : p.1 = k
    · simp only [jsGet_cons, hk, if_true, Option.some.injEq] at h
      have : p = (k, v) := Prod.ext hk h
      rw [← this]
      exact List.mem_cons_self p m
    · simp only [jsGet_cons, hk, if_false] at h
      exact List.mem_cons_of_mem _ (ih h)

/-- Auxiliary: the in-place overwrite map used by jsSet does not affect
lookups at other keys. -/
theorem jsGet_overwrite_ne {α β : Type} [DecidableEq α] (m : List (α × β)) (k k' : α) (v : β)
    (h : k' ≠ k) :
    jsGet (m.map (fun p => if p.1 = k then (k, v) else p)) k' = jsGet m k' := by
  induction m with
  | nil => rfl
  | cons p m ih =>
    rw [List.map_cons]
    by_cases hp : p.1 = k
    · rw [if_pos hp, jsGet_cons, jsGet_cons]
      have hne : ¬ (k = k') := fun hh => h hh.symm
      have hne' : ¬ (p.1 = k') := hp ▸ hne
      simp only [hne, if_false, hne', ih]
    · rw [if_neg hp, jsGet_cons, jsGet_cons]
      by_cases hq : p.1 = k' <;> simp [hq, ih]

/-- Auxiliary: the in-place overwrite map used by jsSet makes the first
occurrence of the key hold the new value. -/
theorem jsGet_overwrite_self {α β : Type} [DecidableEq α] (m : List (α × β)) (k : α) (v : β)
    (hmem : k ∈ m.map Prod.fst) :
    jsGet (m.map (fun p => if p.1 = k then (k, v) else p)) k = some v := by
  induction m with
  | nil => simp at hmem
  | cons p m ih =>
    by_cases hp : p.1 = k
    · simp [hp]
    · have hmem' : k ∈ m.map Prod.fst := by
        rw [List.map_cons, List.mem_cons] at hmem
        rcases hmem with h1 | h1
        · exact absurd h1.symm hp
        · exact h1
      rw [List.map_cons, if_neg hp, jsGet_cons]
      simp [hp, ih hmem']

theorem jsGet_jsSet_self {α β : Type} [DecidableEq α] (m : List (α × β)) (k : α) (v : β) :
    jsGet (jsSet m k v) k = some v := by
  unfold jsSet
  by_cases h : k ∈ m.map Prod.fst
  · simp only [h, if_true]
    exact jsGet_overwrite_self m k v h
  · simp only [h, if_false]
    rw [jsGet_append]
    have : jsGet m k = none := (jsGet_eq_none_iff m k).mpr h
    simp [this]

theorem jsGet_jsSet_ne {α β : Type} [DecidableEq α] (m : List (α × β)) (k k' : α) (v : β)
    (h : k' ≠ k) : jsGet (jsSet m k v) k' = jsGet m k' := by
  unfold jsSet
  by_cases hk : k ∈ m.map Prod.fst
  · simp only [hk, if_true]
    exact jsGet_overwrite_ne m k k' v h
  · simp only [hk, if_false]
    rw [jsGet_append]
    cases hg : jsGet m k' with
    | none =>
      have hne : ¬ (k = k') := fun hh => h hh.symm
      simp [hne]
    | some w => simp

theorem keysOf_jsSet {α β : Type} [DecidableEq α] (m : List (α × β)) (k : α) (v : β) :
    keysOf (jsSet m k v) = if k ∈ keysOf m then keysOf m else keysOf m ++ [k] := by
  unfold jsSet keysOf
  by_cases h : k ∈ m.map Prod.fst
  · simp only [h, if_true, List.map_map]
    refine List.map_congr_left ?_
    intro p _
    by_cases hp : p.1 = k <;> simp [hp, Function.comp]
  · simp [h]

theorem nodup_keysOf_jsSet {α β : Type} [DecidableEq α] {m : List (α × β)} (k : α) (v : β)
    (h : (keysOf m).Nodup) : (keysOf (jsSet m k v)).Nodup := by
  rw [keysOf_jsSet]
  by_cases hk : k ∈ keysOf m
  · simpa [hk]
  · simp only [hk, if_false]
    rw [List.nodup_append]
    refine ⟨h, List.nodup_singleton k, ?_⟩
    intro a ha hb
    simp only [List.mem_singleton] at hb
    subst hb
    exact hk ha

theorem jsGet_jsDel_self {α β : Type} [DecidableEq α] (m : List (α × β)) (k : α) :
    jsGet (jsDel m k) k = none := by
  rw [jsGet_eq_none_iff]
  intro hmem
  simp only [keysOf, jsDel, List.mem_map, List.mem_filter] at hmem
  rcases hmem with ⟨p, ⟨_, hp⟩, rfl⟩
  simp at hp

theorem jsGet_jsDel_ne {α β : Type} [DecidableEq α] (m : List (α × β)) (k k' : α)
    (h : k' ≠ k) : jsGet (jsDel m k) k' = jsGet m k' := by
  induction m with
  | nil => rfl
  | cons p m ih =>
    unfold jsDel at ih ⊢
    simp only [ne_eq, decide_not] at ih
    rw [List.filter_cons]
    by_cases hp : p.1 = k
    · have hkk : ¬ (k = k') := fun hh => h hh.symm
      simp [hp, ih, hkk]
    · simp [hp, ih]

theorem nodup_keysOf_jsDel {α β : Type} [DecidableEq α] (m : List (α × β)) (k : α)
    (h : (keysOf m).Nodup) : (keysOf (jsDel m k)).Nodup := by
  unfold jsDel keysOf at *
  exact (List.Sublist.map Prod.fst (List.filter_sublist m)).nodup h

theorem digitsVal_append_singleton (xs : Str) (d : Char) :
    digitsVal (xs ++ [d]) = 10 * digitsVal xs + (d.toNat - 48) := by
  simp [digitsVal, List.foldl_append]

theorem digitChar_toNat_sub (m : Nat) (h : m < 10) :
    (Nat.digitChar m).toNat - 48 = m := by
  interval_cases m <;> decide

theorem digitChar_isDigit (m : Nat) (h : m < 10) :
    isDigitChar (Nat.digitChar m) = true := by
  interval_cases m <;> decide

theorem toDigitsCore_append (fuel : Nat) : ∀ (n : Nat) (ds : Str),
    Nat.toDigitsCore 10 fuel n ds = Nat.toDigitsCore 10 fuel n [] ++ ds := by
  induction fuel with
  | zero => intro n ds; simp [Nat.toDigitsCore]
  | succ fuel ih =>
    intro n ds
    simp only [Nat.toDigitsCore]
    by_cases h0 : n / 10 = 0
    · simp [h0]
    · simp only [h0, if_false]
      rw [ih (n / 10) (Nat.digitChar (n % 10) :: ds),
        ih (n / 10) [Nat.digitChar (n % 10)]]
      simp

theorem digitsVal_toDigitsCore (fuel : Nat) : ∀ n : Nat, n < 10 ^ fuel →
    digitsVal (Nat.toDigitsCore 10 fuel n []) = n := by
  induction fuel with
  | zero =>
    intro n h
    interval_cases n
    rfl
  | succ fuel ih =>
    intro n h
    simp only [Nat.toDigitsCore]
    by_cases h0 : n / 10 = 0
    · have hn : n < 10 := by omega
      simp only [h0, if_true]
      show digitsVal [Nat.digitChar (n % 10)] = n
      have : digitsVal [Nat.digitChar (n % 10)] = (Nat.digitChar (n % 10)).toNat - 48 := by
        simp [digitsVal]
      rw [this, digitChar_toNat_sub (n % 10) (Nat.mod_lt n (by norm_num)), Nat.mod_eq_of_lt hn]
    · simp only [h0, if_false]
      rw [toDigitsCore_append fuel (n / 10) [Nat.digitChar (n % 10)],
        digitsVal_append_singleton,
        ih (n / 10) (by rw [pow_succ] at h; exact Nat.div_lt_of_lt_mul (by omega)),
        digitChar_toNat_sub (n % 10) (Nat.mod_lt n (by omega))]
      omega

theorem digitsVal_toDigits (n : Nat) : digitsVal (Nat.toDigits 10 n) = n := by
  unfold Nat.toDigits
  exact digitsVal_toDigitsCore (n + 1) n
    (lt_of_lt_of_le (Nat.lt_pow_self (by norm_num) n) (Nat.pow_le_pow_right (by norm_num) (Nat.le_succ n)))

theorem toDigits_injective {m n : Nat} (h : Nat.toDigits 10 m = Nat.toDigits 10 n) :
    m = n := by
  have := congrArg digitsVal h
  rwa [digitsVal_toDigits, digitsVal_toDigits] at this

theorem toDigitsCore_digits (fuel : Nat) : ∀ (n : Nat) (ds : Str),
    (∀ c ∈ ds, isDigitChar c = true) →
    ∀ c ∈ Nat.toDigitsCore 10 fuel n ds, isDigitChar c = true := by
  induction fuel with
  | zero => intro n ds hds; simpa [Nat.toDigitsCore] using hds
  | succ fuel ih =>
    intro n ds hds
    simp only [Nat.toDigitsCore]
    by_cases h0 : n / 10 = 0
    · simp only [h0, if_true]
      intro c hc
      rcases List.mem_cons.mp hc with rfl | hc
      · exact digitChar_isDigit (n % 10) (by omega)
      · exact hds c hc
    · simp only [h0, if_false]
      refine ih (n / 10) _ ?_
      intro c hc
      rcases List.mem_cons.mp hc with rfl | hc
      · exact digitChar_isDigit (n % 10) (by omega)
      · exact hds c hc

theorem toDigits_digits (n : Nat) : ∀ c ∈ Nat.toDigits 10 n, isDigitChar c = true :=
  toDigitsCore_digits (n + 1) n [] (by simp)

theorem safePath_of_digit {c : Char} (h : isDigitChar c = true) :
    isSafePathChar c = true := by
  unfold isDigitChar at h
  unfold isSafePathChar isAsciiAlphanum
  rw [h]
  simp

theorem goodSt_empty : GoodSt emptySt := by
  refine ⟨⟨?_, ?_⟩, ?_, ?_, ?_, ?_, ?_⟩ <;> simp [emptySt, keysOf]

/-! ### Dictionary decomposition lemmas -/

theorem jsSet_of_not_mem_keys {α β : Type} [DecidableEq α] {m : List (α × β)} {k : α}
    (h : k ∉ keysOf m) (v : β) : jsSet m k v = m ++ [(k, v)] := by
  unfold keysOf at h
  unfold jsSet
  rw [if_neg h]

theorem mem_jsSet_elim {α β : Type} [DecidableEq α] {m : List (α × β)} {k : α} {v : β}
    {p : α × β} (h : p ∈ jsSet m k v) : p = (k, v) ∨ p ∈ m := by
  unfold jsSet at h
  by_cases hk : k ∈ m.map Prod.fst
  · rw [if_pos hk] at h
    rcases List.mem_map.mp h with ⟨q, hq, hqe⟩
    by_cases hq1 : q.1 = k
    · left; rw [← hqe]; simp [hq1]
    · right; rw [← hqe]; simpa [hq1]
  · rw [if_neg hk] at h
    rcases List.mem_append.mp h with h | h
    · right; exact h
    · left; simpa using h

theorem jsSet_decomp {α β : Type} [DecidableEq α] {m : List (α × β)} {k : α} {w : β}
    (hget : jsGet m k = some w) (hnd : (keysOf m).Nodup) (v : β) :
    ∃ m₁ m₂, m = m₁ ++ (k, w) :: m₂ ∧ k ∉ keysOf m₁ ∧ k ∉ keysOf m₂ ∧
      jsSet m k v = m₁ ++ (k, v) :: m₂ ∧ jsDel m k = m₁ ++ m₂ := by
  induction m with
  | nil => simp [jsGet] at hget
  | cons p m ih =>
    by_cases hp : p.1 = k
    · refine ⟨[], m, ?_, ?_, ?_, ?_, ?_⟩
      · simp only [jsGet_cons, hp, if_true, Option.some.injEq] at hget
        have : p = (k, w) := Prod.ext hp hget
        simp [this]
      · simp
      · rw [keysOf_cons] at hnd
        rw [← hp]
        exact (List.nodup_cons.mp hnd).1
      · have hmem : k ∈ (p :: m).map Prod.fst := by simp [← hp]
        unfold jsSet
        rw [if_pos hmem, List.map_cons, if_pos hp, List.nil_append]
        congr 1
        have hknotin : k ∉ m.map Prod.fst := by
          rw [keysOf_cons] at hnd
          rw [← hp]
          exact (List.nodup_cons.mp hnd).1
        refine (List.map_congr_left ?_).trans (List.map_id m)
        intro q hq
        have : ¬ (q.1 = k) := fun hh => hknotin (hh ▸ List.mem_map_of_mem Prod.fst hq)
        simp [this]
      · have hknotin : k ∉ m.map Prod.fst := by
          rw [keysOf_cons] at hnd
          rw [← hp]
          exact (List.nodup_cons.mp hnd).1
        unfold jsDel
        have hdec : decide (p.1 ≠ k) = false := by simp [hp]
        rw [List.filter_cons, hdec]
        simp only [Bool.false_eq_true, if_false, List.nil_append]
        refine List.filter_eq_self.mpr ?_
        intro q hq
        have : ¬ (q.1 = k) := fun hh => hknotin (hh ▸ List.mem_map_of_mem Prod.fst hq)
        simpa using this
    · simp only [jsGet_cons, hp, if_false] at hget
      rw [keysOf_cons] at hnd
      rcases ih hget (List.nodup_cons.mp hnd).2 with ⟨m₁, m₂, hm, h1, h2, hset, hdel⟩
      refine ⟨p :: m₁, m₂, by rw [hm, List.cons_append], ?_, h2, ?_, ?_⟩
      · rw [keysOf_cons]
        intro hmem
        rcases List.mem_cons.mp hmem with hh | hh
        · exact hp hh.symm
        · exact h1 hh
      · have hmem : (k ∈ (p :: m).map Prod.fst) ↔ (k ∈ m.map Prod.fst) := by
          simp only [List.map_cons, List.mem_cons]
          constructor
          · rintro (hh | hh)
            · exact absurd hh.symm hp
            · exact hh
          · exact Or.inr
        unfold jsSet at hset ⊢
        by_cases hin : k ∈ m.map Prod.fst
        · rw [if_pos hin] at hset
          rw [if_pos (hmem.mpr hin), List.map_cons, if_neg hp, List.cons_append, ← hset]
        · rw [if_neg hin] at hset
          rw [if_neg (fun hh => hin (hmem.mp hh)), List.cons_append, List.cons_append, ← hset]
      · unfold jsDel at hdel ⊢
        have hdec : decide (p.1 ≠ k) = true := by simp [hp]
        rw [List.filter_cons, hdec]
        simp only [if_true]
        rw [List.cons_append, ← hdel]

/-! ### Value-count lemmas -/

theorem valCount_append (m₁ m₂ : List (Str × Str)) (f : Str) :
    valCount (m₁ ++ m₂) f = valCount m₁ f + valCount m₂ f := by
  simp [valCount, List.filter_append]

theorem valCount_cons (k v : Str) (m : List (Str × Str)) (f : Str) :
    valCount ((k, v) :: m) f = (if v = f then 1 else 0) + valCount m f := by
  unfold valCount
  rw [List.filter_cons]
  by_cases h : v = f
  · simp [h, Nat.add_comm]
  · simp [h]

theorem valCount_pos_of_mem {m : List (Str × Str)} {p : Str × Str} (hp : p ∈ m)
    (hv : p.2 = f) : 0 < valCount m f := by
  unfold valCount
  rw [List.length_pos]
  intro hnil
  have := List.filter_eq_nil_iff.mp hnil p hp
  simp [hv] at this

theorem valCount_eq_zero_iff (m : List (Str × Str)) (f : Str) :
    valCount m f = 0 ↔ ∀ p ∈ m, ¬ (p.2 = f) := by
  unfold valCount
  rw [List.length_eq_zero, List.filter_eq_nil_iff]
  simp

/-! ### List decomposition lemmas -/

theorem replaceFirst_decomp {l : List Str} {a : Str} (h : a ∈ l)
    (b : Str) : ∃ l₁ l₂, l = l₁ ++ a :: l₂ ∧ a ∉ l₁ ∧
      replaceFirst l a b = l₁ ++ b :: l₂ := by
  induction l with
  | nil => simp at h
  | cons x xs ih =>
    by_cases hx : x = a
    · exact ⟨[], xs, by simp [hx], by simp, by simp [replaceFirst, hx]⟩
    · have hmem : a ∈ xs := by
        rcases List.mem_cons.mp h with hh | hh
        · exact absurd hh.symm hx
        · exact hh
      rcases ih hmem with ⟨l₁, l₂, hl, hnot, hrep⟩
      refine ⟨x :: l₁, l₂, by rw [hl, List.cons_append], ?_, ?_⟩
      · intro hmem'
        rcases List.mem_cons.mp hmem' with hh | hh
        · exact hx hh.symm
        · exact hnot hh
      · rw [List.cons_append, ← hrep]
        simp [replaceFirst, hx]

theorem mem_count_one_decomp {l : List Str} {a : Str}
    (hmem : a ∈ l) (hcount : l.count a = 1) :
    ∃ l₁ l₂, l = l₁ ++ a :: l₂ ∧ a ∉ l₁ ∧ a ∉ l₂ := by
  rcases replaceFirst_decomp hmem a with ⟨l₁, l₂, hl, hnot, _⟩
  refine ⟨l₁, l₂, hl, hnot, ?_⟩
  intro hmem₂
  rw [hl, List.count_append, List.count_cons_self] at hcount
  have h1 : 0 < l₂.count a := List.count_pos_iff.mpr hmem₂
  omega

/-! ### Freshness of the rename collision loop -/

@[simp] theorem pathChar_underscore : pathChar '_' = '_' := by decide

theorem map_pathChar_digits (n : Nat) :
    (Nat.toDigits 10 n).map pathChar = Nat.toDigits 10 n := by
  refine (List.map_congr_left ?_).trans (List.map_id _)
  intro c hc
  have hd := toDigits_digits n c hc
  simp [pathChar, safePath_of_digit hd, id]

theorem renameCandidate_path_inj (base token : Str) {i j : Nat}
    (h : filenameToPath (renameCandidate base token i) =
      filenameToPath (renameCandidate base token j)) : i = j := by
  unfold filenameToPath renameCandidate at h
  simp only [List.map_append, List.map_cons, pathChar_underscore, List.append_assoc,
    List.cons_append, List.append_cancel_left_eq, List.cons.injEq, true_and] at h
  rw [map_pathChar_digits, map_pathChar_digits] at h
  exact toDigits_injective (List.append_cancel_right h)

theorem freshRenameLoop_free (disk : List (Str × Batch)) (base token : Str) :
    ∀ (fuel i : Nat), (∃ j, i ≤ j ∧ j < i + fuel ∧
      jsGet disk (filenameToPath (renameCandidate base token j)) = none) →
    jsGet disk (filenameToPath (freshRenameLoop disk base token fuel i)) = none := by
  intro fuel
  induction fuel with
  | zero =>
    rintro i ⟨j, h1, h2, _⟩
    omega
  | succ fuel ih =>
    rintro i ⟨j, h1, h2, hj⟩
    unfold freshRenameLoop
    by_cases hi : jsGet disk (filenameToPath (renameCandidate base token i)) = none
    · rw [if_pos hi]
      exact hi
    · rw [if_neg hi]
      have hji : j ≠ i := fun hh => hi (hh ▸ hj)
      exact ih (i + 1) ⟨j, by omega, by omega, hj⟩

theorem exists_free_candidate (disk : List (Str × Batch)) (base token : Str) :
    ∃ j, 1 ≤ j ∧ j < 1 + (disk.length + 1) ∧
      jsGet disk (filenameToPath (renameCandidate base token j)) = none := by
  by_contra hcon
  push_neg at hcon
  have hocc : ∀ k < disk.length + 1,
      filenameToPath (renameCandidate base token (k + 1)) ∈ keysOf disk := by
    intro k hk
    have := hcon (k + 1) (by omega) (by omega)
    by_contra hmem
    exact this ((jsGet_eq_none_iff _ _).mpr hmem)
  have hnodup : ((List.range (disk.length + 1)).map
      (fun k => filenameToPath (renameCandidate base token (k + 1)))).Nodup := by
    refine (List.nodup_range _).map ?_
    intro a b hab
    have := renameCandidate_path_inj base token hab
    omega
  have hsub : ((List.range (disk.length + 1)).map
      (fun k => filenameToPath (renameCandidate base token (k + 1)))).toFinset ⊆
      (keysOf disk).toFinset := by
    intro x hx
    rw [List.mem_toFinset] at hx ⊢
    rcases List.mem_map.mp hx with ⟨k, hk, rfl⟩
    exact hocc k (List.mem_range.mp hk)
  have hcard1 := List.toFinset_card_of_nodup hnodup
  rw [List.length_map, List.length_range] at hcard1
  have hcard2 : ((keysOf disk).toFinset).card ≤ disk.length := by
    have h1 : ((keysOf disk).toFinset).card ≤ (keysOf disk).length :=
      List.toFinset_card_le (keysOf disk)
    have h2 : (keysOf disk).length = disk.length := by simp [keysOf]
    omega
  have := Finset.card_le_card hsub
  omega

theorem freshRenameName_fresh (disk : List (Str × Batch)) (base token : Str) :
    jsGet disk (filenameToPath (freshRenameName disk base token)) = none := by
  unfold freshRenameName
  by_cases h : jsGet disk (filenameToPath
      (if base = [] then "batch_".data ++ token else base ++ '_' :: token)) = none
  · rw [if_pos h]
    exact h
  · rw [if_neg h]
    exact freshRenameLoop_free disk base token (disk.length + 1) 1
      (exists_free_candidate disk base token)

/-! ### Preservation of the invariant by each operation -/

theorem mem_keysOf_of_jsGet_ne_none {α β : Type} [DecidableEq α] {m : List (α × β)} {k : α}
    (h : jsGet m k ≠ none) : k ∈ keysOf m := by
  by_contra hm
  exact h ((jsGet_eq_none_iff m k).mpr hm)

theorem goodSt_open (st : St) (chat : Nat) (name token now : Str)
    (hg : GoodSt st) (hv : opValid st (.openBatch chat name token now)) :
    GoodSt (startPendingBatch st chat name token now) := by
  obtain ⟨⟨hbij1, hbij2⟩, haux, hpinj, hndt, hndd, hsess⟩ := hg
  obtain ⟨htne, htok, hford, hfdisk⟩ := hv
  have htokmem : token ∉ keysOf st.idx.tokens := (jsGet_eq_none_iff _ _).mp htok
  have htokens : jsSet st.idx.tokens token (chosenName name token) =
      st.idx.tokens ++ [(token, chosenName name token)] :=
    jsSet_of_not_mem_keys htokmem _
  have hf0 : valCount st.idx.tokens (chosenName name token) = 0 := by
    rw [valCount_eq_zero_iff]
    intro p hp hpv
    have h1 := hbij2 p hp
    rw [hpv] at h1
    exact hford (List.count_pos_iff.mp (by omega))
  have hfpathfresh : filenameToPath (chosenName name token) ∉ keysOf st.disk :=
    (jsGet_eq_none_iff _ _).mp hfdisk
  have hgne : ∀ g ∈ st.idx.order,
      filenameToPath g ≠ filenameToPath (chosenName name token) := by
    intro g hgmem heq
    exact hfpathfresh (heq ▸ mem_keysOf_of_jsGet_ne_none (haux g hgmem))
  unfold startPendingBatch registerTokenInIndex createBatchFile writeBatchFile
  dsimp only
  rw [if_neg hford]
  refine ⟨⟨?_, ?_⟩, ?_, ?_, ?_, ?_, ?_⟩
  · intro g hgmem
    rcases List.mem_append.mp hgmem with hgo | hgf
    · have hgnef : ¬ (chosenName name token = g) := fun hh => hford (hh ▸ hgo)
      show valCount (jsSet st.idx.tokens token (chosenName name token)) g = 1
      rw [htokens, valCount_append, valCount_cons]
      simp only [hgnef, if_false]
      have := hbij1 g hgo
      simp only [valCount, List.filter_nil, List.length_nil] at this ⊢
      omega
    · have hgf2 : g = chosenName name token := by simpa using hgf
      subst hgf2
      show valCount (jsSet st.idx.tokens token (chosenName name token))
        (chosenName name token) = 1
      rw [htokens, valCount_append, valCount_cons, hf0]
      simp [valCount]
  · intro p hp
    rcases mem_jsSet_elim hp with rfl | hpmem
    · simp only
      rw [List.count_append]
      have h0 : st.idx.order.count (chosenName name token) = 0 := by
        rw [List.count_eq_zero]
        exact hford
      rw [h0, List.count_cons_self, List.count_nil]
    · have hpvne : ¬ (p.2 = chosenName name token) := by
        intro hh
        have := valCount_pos_of_mem hpmem hh
        omega
      rw [List.count_append]
      have h2 : List.count p.2 [chosenName name token] = 0 := by
        rw [List.count_eq_zero]
        simp only [List.mem_singleton]
        exact fun hh => hpvne hh
      rw [h2, hbij2 p hpmem]
  · intro g hgmem
    rcases List.mem_append.mp hgmem with hgo | hgf
    · rw [jsGet_jsSet_ne _ _ _ _ (hgne g hgo)]
      exact haux g hgo
    · have hgf : g = chosenName name token := by simpa using hgf
      subst hgf
      rw [jsGet_jsSet_self]
      simp
  · rw [List.pairwise_append]
    refine ⟨hpinj, List.pairwise_singleton _ _, ?_⟩
    intro a ha b hb
    have hb : b = chosenName name token := by simpa using hb
    subst hb
    exact hgne a ha
  · exact nodup_keysOf_jsSet token _ hndt
  · exact nodup_keysOf_jsSet (filenameToPath (chosenName name token)) _ hndd
  · intro p hp
    rcases mem_jsSet_elim hp with rfl | hpmem
    · exact htne
    · exact hsess p hpmem

theorem goodSt_finalize (st : St) (chat : Nat) (hg : GoodSt st) :
    GoodSt (finalizePendingBatch st chat) := by
  obtain ⟨hbij, haux, hpinj, hndt, hndd, hsess⟩ := hg
  refine ⟨hbij, haux, hpinj, hndt, hndd, ?_⟩
  intro p hp
  unfold finalizePendingBatch jsDel at hp
  exact hsess p (List.mem_of_mem_filter hp)

theorem goodSt_delete (st : St) (token : Str) (hg : GoodSt st) :
    GoodSt (deleteFileByToken st token) := by
  obtain ⟨⟨hbij1, hbij2⟩, haux, hpinj, hndt, hndd, hsess⟩ := hg
  unfold deleteFileByToken
  cases hget : jsGet st.idx.tokens token with
  | none => exact ⟨⟨hbij1, hbij2⟩, haux, hpinj, hndt, hndd, hsess⟩
  | some f =>
    obtain ⟨m₁, m₂, hm, hk1, hk2, _, hdel⟩ := jsSet_decomp hget hndt f
    have hfcount : st.idx.order.count f = 1 := by
      simpa using hbij2 (token, f) (mem_of_jsGet_eq_some hget)
    have hfmem : f ∈ st.idx.order := List.count_pos_iff.mp (by omega)
    obtain ⟨l₁, l₂, hl, hfl1, hfl2⟩ := mem_count_one_decomp hfmem hfcount
    have horder : st.idx.order.filter (fun g => g ≠ f) = l₁ ++ l₂ := by
      rw [hl, List.filter_append, List.filter_cons]
      have hdec : decide (f ≠ f) = false := by simp
      rw [hdec]
      simp only [Bool.false_eq_true, if_false]
      congr 1
      · refine List.filter_eq_self.mpr ?_
        intro a ha
        have : ¬ (a = f) := fun hh => hfl1 (hh ▸ ha)
        simpa using this
      · refine List.filter_eq_self.mpr ?_
        intro a ha
        have : ¬ (a = f) := fun hh => hfl2 (hh ▸ ha)
        simpa using this
    have hpinj' := hl ▸ hpinj
    rw [List.pairwise_append] at hpinj'
    obtain ⟨hp1, hp2, hp12⟩ := hpinj'
    rw [List.pairwise_cons] at hp2
    obtain ⟨hpf, hp2⟩ := hp2
    dsimp only
    refine ⟨⟨?_, ?_⟩, ?_, ?_, ?_, ?_, ?_⟩
    · intro g hgmem
      rw [horder] at hgmem
      have hgor : g ∈ st.idx.order := by
        rw [hl]
        rcases List.mem_append.mp hgmem with h | h
        · exact List.mem_append.mpr (Or.inl h)
        · exact List.mem_append.mpr (Or.inr (List.mem_cons_of_mem f h))
      have hgne : ¬ (f = g) := by
        rintro rfl
        rcases List.mem_append.mp hgmem with h | h
        · exact hfl1 h
        · exact hfl2 h
      show valCount (jsDel st.idx.tokens token) g = 1
      rw [hdel, valCount_append]
      have := hbij1 g hgor
      rw [hm, valCount_append, valCount_cons] at this
      simp only [hgne, if_false] at this
      omega
    · intro p hp
      rw [hdel] at hp
      have hpmem : p ∈ st.idx.tokens := by
        rw [hm]
        rcases List.mem_append.mp hp with h | h
        · exact List.mem_append.mpr (Or.inl h)
        · exact List.mem_append.mpr (Or.inr (List.mem_cons_of_mem _ h))
      have hpvne : ¬ (p.2 = f) := by
        intro hh
        have hvc : 1 < valCount st.idx.tokens f := by
          rw [hm, valCount_append, valCount_cons]
          simp only [eq_self_iff_true, if_true]
          rcases List.mem_append.mp hp with h | h
          · have := valCount_pos_of_mem h hh
            omega
          · have := valCount_pos_of_mem h hh
            omega
        have := hbij1 f hfmem
        omega
      rw [horder, List.count_append]
      have := hbij2 p hpmem
      rw [hl, List.count_append, List.count_cons] at this
      have hpvne2 : ¬ (f = p.2) := fun hh => hpvne hh.symm
      simp only [beq_iff_eq, hpvne, hpvne2, if_false] at this
      omega
    · intro g hgmem
      rw [horder] at hgmem
      have hgne : filenameToPath g ≠ filenameToPath f := by
        rcases List.mem_append.mp hgmem with h | h
        · exact hp12 g h f (List.mem_cons_self f l₂)
        · exact fun hh => (hpf g h) hh.symm
      rw [jsGet_jsDel_ne _ _ _ hgne]
      apply haux
      rw [hl]
      rcases List.mem_append.mp hgmem with h | h
      · exact List.mem_append.mpr (Or.inl h)
      · exact List.mem_append.mpr (Or.inr (List.mem_cons_of_mem f h))
    · rw [horder]
      rw [List.pairwise_append]
      refine ⟨hp1, hp2, ?_⟩
      intro a ha b hb
      exact hp12 a ha b (List.mem_cons_of_mem f hb)
    · exact nodup_keysOf_jsDel _ token hndt
    · exact nodup_keysOf_jsDel _ _ hndd
    · exact hsess

theorem jsGet_ne_none_of_mem_keys {α β : Type} [DecidableEq α] {m : List (α × β)} {k : α}
    (hk : k ∈ keysOf m) : jsGet m k ≠ none :=
  fun hn => ((jsGet_eq_none_iff m k).mp hn) hk

theorem valCount_eq_zero_of_not_mem {idx : Index}
    (hbij2 : ∀ p ∈ idx.tokens, idx.order.count p.2 = 1) {f : Str} (hf : f ∉ idx.order) :
    valCount idx.tokens f = 0 := by
  rw [valCount_eq_zero_iff]
  intro p hp hpv
  have h1 := hbij2 p hp
  rw [hpv] at h1
  exact hf (List.count_pos_iff.mp (by omega))

/-- Overwriting a batch record at a storage path already on disk
preserves the invariant: the key set of the disk is unchanged. -/
theorem goodSt_writeExisting (st : St) (filename : Str) (b : Batch)
    (hg : GoodSt st) (hmem : filenameToPath filename ∈ keysOf st.disk) :
    GoodSt { st with disk := jsSet st.disk (filenameToPath filename) b } := by
  obtain ⟨hbij, haux, hpinj, hndt, hndd, hsess⟩ := hg
  have hkeys : keysOf (jsSet st.disk (filenameToPath filename) b) = keysOf st.disk := by
    rw [keysOf_jsSet, if_pos hmem]
  refine ⟨hbij, ?_, hpinj, hndt, ?_, hsess⟩
  · intro f hf
    apply jsGet_ne_none_of_mem_keys
    rw [hkeys]
    exact mem_keysOf_of_jsGet_ne_none (haux f hf)
  · rw [hkeys]
    exact hndd

/-- Storing an authoring session with a nonempty token preserves the
invariant. -/
theorem goodSt_setSession (st : St) (chat : Nat) (p : PendingBatch)
    (hg : GoodSt st) (htne : p.token ≠ []) :
    GoodSt { st with pendingBatches := jsSet st.pendingBatches chat p } := by
  obtain ⟨hbij, haux, hpinj, hndt, hndd, hsess⟩ := hg
  refine ⟨hbij, haux, hpinj, hndt, hndd, ?_⟩
  intro q hq
  rcases mem_jsSet_elim hq with rfl | hqmem
  · exact htne
  · exact hsess q hqmem

/-- The on-disk rename preserves the invariant provided the index still
maps the token to the old filename: the freshly chosen storage key is
free, so the new filename enters the order list exactly where the old
one left. -/
theorem goodSt_rename (st : St) (oldFilename base token disp : Str)
    (hg : GoodSt st) (hagree : jsGet st.idx.tokens token = some oldFilename)
    (htne : token ≠ []) :
    GoodSt (renameBatchFileOnDisk st oldFilename base token disp).1 := by
  obtain ⟨⟨hbij1, hbij2⟩, haux, hpinj, hndt, hndd, hsess⟩ := hg
  unfold renameBatchFileOnDisk
  cases hrb : readBatchFile st.disk oldFilename with
  | none => exact ⟨⟨hbij1, hbij2⟩, haux, hpinj, hndt, hndd, hsess⟩
  | some batch =>
    dsimp only
    rw [if_neg htne]
    have htokcur : (token, oldFilename) ∈ st.idx.tokens := mem_of_jsGet_eq_some hagree
    have hcount : st.idx.order.count oldFilename = 1 := by
      simpa using hbij2 _ htokcur
    have holdmem : oldFilename ∈ st.idx.order := List.count_pos_iff.mp (by omega)
    rw [if_pos holdmem]
    have hfree : jsGet st.disk (filenameToPath (freshRenameName st.disk base token)) = none :=
      freshRenameName_fresh st.disk base token
    have hnotord : freshRenameName st.disk base token ∉ st.idx.order :=
      fun hmem => (haux _ hmem) hfree
    have holdpath : filenameToPath oldFilename ∈ keysOf st.disk := by
      apply mem_keysOf_of_jsGet_ne_none
      unfold readBatchFile at hrb
      rw [hrb]
      simp
    have hpathne : filenameToPath (freshRenameName st.disk base token) ≠
        filenameToPath oldFilename := by
      intro hh
      exact ((jsGet_eq_none_iff _ _).mp hfree) (hh ▸ holdpath)
    have hfn0 : valCount st.idx.tokens (freshRenameName st.disk base token) = 0 :=
      valCount_eq_zero_of_not_mem hbij2 hnotord
    obtain ⟨m₁, m₂, hm, hk1, hk2, hset, _⟩ := jsSet_decomp hagree hndt
      (freshRenameName st.disk base token)
    obtain ⟨l₁, l₂, hl, hfl1, hrep⟩ := replaceFirst_decomp holdmem
      (freshRenameName st.disk base token)
    have hfl2 : oldFilename ∉ l₂ := by
      intro hmem₂
      rw [hl, List.count_append, List.count_cons_self] at hcount
      have h1 : 0 < l₂.count oldFilename := List.count_pos_iff.mpr hmem₂
      omega
    have hpinj' := hl ▸ hpinj
    rw [List.pairwise_append] at hpinj'
    obtain ⟨hp1, hp2, hp12⟩ := hpinj'
    rw [List.pairwise_cons] at hp2
    obtain ⟨hpf, hp2⟩ := hp2
    have hnotl1 : freshRenameName st.disk base token ∉ l₁ := by
      intro hmem
      exact hnotord (hl ▸ List.mem_append.mpr (Or.inl hmem))
    have hnotl2 : freshRenameName st.disk base token ∉ l₂ := by
      intro hmem
      exact hnotord (hl ▸ List.mem_append.mpr (Or.inr (List.mem_cons_of_mem _ hmem)))
    have hfnold : freshRenameName st.disk base token ≠ oldFilename := by
      intro hh
      exact hnotord (hh ▸ holdmem)
    rw [hset, hrep]
    have hauxmem : ∀ g ∈ l₁ ++ l₂, g ∈ st.idx.order := by
      intro g hgmem
      rw [hl]
      rcases List.mem_append.mp hgmem with h | h
      · exact List.mem_append.mpr (Or.inl h)
      · exact List.mem_append.mpr (Or.inr (List.mem_cons_of_mem _ h))
    have hpathg : ∀ g ∈ l₁ ++ l₂,
        filenameToPath g ≠ filenameToPath (freshRenameName st.disk base token) := by
      intro g hgmem hh
      exact ((jsGet_eq_none_iff _ _).mp hfree)
        (hh ▸ mem_keysOf_of_jsGet_ne_none (haux g (hauxmem g hgmem)))
    have hpatholdg : ∀ g ∈ l₁ ++ l₂, filenameToPath g ≠ filenameToPath oldFilename := by
      intro g hgmem
      rcases List.mem_append.mp hgmem with h | h
      · exact hp12 g h oldFilename (List.mem_cons_self _ _)
      · exact fun hh => (hpf g h) hh.symm
    refine ⟨⟨?_, ?_⟩, ?_, ?_, ?_, ?_, ?_⟩
    · intro g hgmem
      show valCount (m₁ ++ (token, freshRenameName st.disk base token) :: m₂) g = 1
      rw [valCount_append, valCount_cons]
      rcases List.mem_append.mp hgmem with hgl | hgl
      · have hgord : g ∈ st.idx.order := hauxmem g (List.mem_append.mpr (Or.inl hgl))
        have hgne : ¬ (freshRenameName st.disk base token = g) :=
          fun hh => hnotord (hh ▸ hgord)
        have hgneold : ¬ (g = oldFilename) := fun hh => hfl1 (hh ▸ hgl)
        simp only [hgne, if_false]
        have h1 := hbij1 g hgord
        rw [hm, valCount_append, valCount_cons] at h1
        have : ¬ (oldFilename = g) := fun hh => hgneold hh.symm
        simp only [this, if_false] at h1
        omega
      · rcases List.mem_cons.mp hgl with rfl | hgl2
        · simp only [eq_self_iff_true, if_true]
          have h0 : valCount st.idx.tokens (freshRenameName st.disk base token) = 0 := hfn0
          rw [hm, valCount_append, valCount_cons] at h0
          omega
        · have hgord : g ∈ st.idx.order := hauxmem g (List.mem_append.mpr (Or.inr hgl2))
          have hgne : ¬ (freshRenameName st.disk base token = g) :=
            fun hh => hnotord (hh ▸ hgord)
          have hgneold : ¬ (g = oldFilename) := fun hh => hfl2 (hh ▸ hgl2)
          simp only [hgne, if_false]
          have h1 := hbij1 g hgord
          rw [hm, valCount_append, valCount_cons] at h1
          have : ¬ (oldFilename = g) := fun hh => hgneold hh.symm
          simp only [this, if_false] at h1
          omega
    · intro p hp
      rcases List.mem_append.mp hp with hpm | hpm
      swap
      · rcases List.mem_cons.mp hpm with rfl | hpm2
        · show List.count (freshRenameName st.disk base token)
            (l₁ ++ freshRenameName st.disk base token :: l₂) = 1
          rw [List.count_append, List.count_cons_self]
          have hc1 : l₁.count (freshRenameName st.disk base token) = 0 :=
            List.count_eq_zero.mpr hnotl1
          have hc2 : l₂.count (freshRenameName st.disk base token) = 0 :=
            List.count_eq_zero.mpr hnotl2
          omega
        · have hpmem : p ∈ st.idx.tokens := by
            rw [hm]
            exact List.mem_append.mpr (Or.inr (List.mem_cons_of_mem _ hpm2))
          have hpvne : ¬ (p.2 = oldFilename) := by
            intro hh
            have hvc : 1 < valCount st.idx.tokens oldFilename := by
              rw [hm, valCount_append, valCount_cons]
              simp only [eq_self_iff_true, if_true]
              have := valCount_pos_of_mem hpm2 hh
              omega
            have := hbij1 oldFilename holdmem
            omega
          have hpvnef : ¬ (p.2 = freshRenameName st.disk base token) := by
            intro hh
            have := valCount_pos_of_mem hpmem hh
            omega
          have h1 := hbij2 p hpmem
          rw [hl, List.count_append, List.count_cons] at h1
          have hpvne2 : ¬ (oldFilename = p.2) := fun hh => hpvne hh.symm
          simp only [beq_iff_eq, hpvne, hpvne2, if_false] at h1
          rw [List.count_append, List.count_cons]
          have hpvnef2 : ¬ (freshRenameName st.disk base token = p.2) :=
            fun hh => hpvnef hh.symm
          simp only [beq_iff_eq, hpvnef, hpvnef2, if_false]
          omega
      · have hpmem : p ∈ st.idx.tokens := by
          rw [hm]
          exact List.mem_append.mpr (Or.inl hpm)
        have hpvne : ¬ (p.2 = oldFilename) := by
          intro hh
          have hvc : 1 < valCount st.idx.tokens oldFilename := by
            rw [hm, valCount_append, valCount_cons]
            simp only [eq_self_iff_true, if_true]
            have := valCount_pos_of_mem hpm hh
            omega
          have := hbij1 oldFilename holdmem
          omega
        have hpvnef : ¬ (p.2 = freshRenameName st.disk base token) := by
          intro hh
          have := valCount_pos_of_mem hpmem hh
          omega
        have h1 := hbij2 p hpmem
        rw [hl, List.count_append, List.count_cons] at h1
        have hpvne2 : ¬ (oldFilename = p.2) := fun hh => hpvne hh.symm
        simp only [beq_iff_eq, hpvne, hpvne2, if_false] at h1
        rw [List.count_append, List.count_cons]
        have hpvnef2 : ¬ (freshRenameName st.disk base token = p.2) :=
          fun hh => hpvnef hh.symm
        simp only [beq_iff_eq, hpvnef, hpvnef2, if_false]
        omega
    · intro g hgmem
      rcases List.mem_append.mp hgmem with hgl | hgl
      · have hg1 : g ∈ l₁ ++ l₂ := List.mem_append.mpr (Or.inl hgl)
        rw [jsGet_jsDel_ne _ _ _ (hpatholdg g hg1),
          jsGet_jsSet_ne _ _ _ _ (hpathg g hg1)]
        exact haux g (hauxmem g hg1)
      · rcases List.mem_cons.mp hgl with rfl | hgl2
        · rw [jsGet_jsDel_ne _ _ _ hpathne, jsGet_jsSet_self]
          simp
        · have hg1 : g ∈ l₁ ++ l₂ := List.mem_append.mpr (Or.inr hgl2)
          rw [jsGet_jsDel_ne _ _ _ (hpatholdg g hg1),
            jsGet_jsSet_ne _ _ _ _ (hpathg g hg1)]
          exact haux g (hauxmem g hg1)
    · rw [List.pairwise_append]
      refine ⟨hp1, ?_, ?_⟩
      · rw [List.pairwise_cons]
        refine ⟨?_, hp2⟩
        intro b hb
        exact fun hh => (hpathg b (List.mem_append.mpr (Or.inr hb))) hh.symm
      · intro a ha b hb
        rcases List.mem_cons.mp hb with rfl | hb2
        · exact hpathg a (List.mem_append.mpr (Or.inl ha))
        · exact hp12 a ha b (List.mem_cons_of_mem _ hb2)
    · have : keysOf (m₁ ++ (token, freshRenameName st.disk base token) :: m₂) =
          keysOf st.idx.tokens := by
        rw [hm]
        simp [keysOf]
      rw [this]
      exact hndt
    · apply nodup_keysOf_jsDel
      exact nodup_keysOf_jsSet _ _ hndd
    · exact hsess

/-- Appending an item preserves the invariant: the write goes to an
existing storage key, and the possible auto-naming rename is covered by
goodSt_rename. -/
theorem goodSt_append (st : St) (chat : Nat) (meta : FileMeta) (now : Str)
    (hg : GoodSt st) (hv : opValid st (.appendItem chat meta now)) :
    GoodSt (addFileToPending st chat meta now).st := by
  cases hcur : jsGet st.pendingBatches chat with
  | none =>
    unfold addFileToPending
    rw [hcur]
    exact hg
  | some cur =>
    have hagree : jsGet st.idx.tokens cur.token = some cur.filename := by
      apply hv
      rw [hcur]
      simp
    have htne : cur.token ≠ [] := hg.2.2.2.2.2 (chat, cur) (mem_of_jsGet_eq_some hcur)
    have htokcur : (cur.token, cur.filename) ∈ st.idx.tokens := mem_of_jsGet_eq_some hagree
    have hcount : st.idx.order.count cur.filename = 1 := by
      simpa using hg.1.2 _ htokcur
    have hmemord : cur.filename ∈ st.idx.order := List.count_pos_iff.mp (by omega)
    have hdisk0 := hg.2.1 _ hmemord
    have hpathmem : filenameToPath cur.filename ∈ keysOf st.disk :=
      mem_keysOf_of_jsGet_ne_none hdisk0
    obtain ⟨b, hb⟩ := Option.ne_none_iff_exists'.mp hdisk0
    unfold addFileToPending
    rw [hcur]
    dsimp only
    rw [show readBatchFile st.disk cur.filename = some b from hb]
    dsimp only
    have hgood1 := goodSt_writeExisting st cur.filename
      { b with files := b.files ++ [meta] } hg hpathmem
    split
    · split
      · split
        · exact goodSt_setSession _ chat _
            (goodSt_rename _ cur.filename _ cur.token _ hgood1 hagree htne) htne
        · exact goodSt_setSession _ chat _
            (goodSt_rename _ cur.filename _ cur.token _ hgood1 hagree htne) htne
      · exact goodSt_setSession _ chat _ hgood1 htne
    · exact goodSt_setSession _ chat _ hgood1 htne

theorem goodSt_step (st : St) (op : Op) (hg : GoodSt st) (hv : opValid st op) :
    GoodSt (stepOp st op) := by
  cases op with
  | openBatch chat name token now => exact goodSt_open st chat name token now hg hv
  | appendItem chat meta now => exact goodSt_append st chat meta now hg hv
  | finalize chat => exact goodSt_finalize st chat hg
  | deleteBatch token => exact goodSt_delete st token hg

theorem goodSt_runOps (ops : List Op) (st : St) (hg : GoodSt st) (hv : ValidOps ops st) :
    GoodSt (runOps ops st) := by
  induction ops generalizing st with
  | nil => exact hg
  | cons op ops ih => exact ih (stepOp st op) (goodSt_step st op hg hv.1) hv.2

/-! ### Cache expiry lemmas -/

theorem jsSet_key_val {α β : Type} [DecidableEq α] (m : List (α × β)) (k : α) (v : β) :
    ∀ p ∈ jsSet m k v, p.1 = k → p.2 = v := by
  intro p hp hpk
  unfold jsSet at hp
  by_cases hk : k ∈ m.map Prod.fst
  · rw [if_pos hk] at hp
    rcases List.mem_map.mp hp with ⟨q, hq, hqe⟩
    by_cases hq1 : q.1 = k
    · rw [← hqe]
      simp [hq1]
    · rw [← hqe] at hpk
      simp only [hq1, if_false] at hpk
  · rw [if_neg hk] at hp
    rcases List.mem_append.mp hp with h | h
    · exact absurd (hpk ▸ List.mem_map_of_mem Prod.fst h) hk
    · have : p = (k, v) := by simpa using h
      rw [this]

theorem jsGet_filter {α β : Type} [DecidableEq α] (m : List (α × β)) (q : α × β → Bool)
    (k : α) (e : β) (hall : ∀ p ∈ m, p.1 = k → p.2 = e) (hget : jsGet m k = some e)
    (hq : ∀ p ∈ m, p.1 = k → q p = true) :
    jsGet (m.filter q) k = some e := by
  induction m with
  | nil => simp at hget
  | cons p m ih =>
    rw [List.filter_cons]
    by_cases hpk : p.1 = k
    · rw [hq p (List.mem_cons_self _ _) hpk, if_pos rfl, jsGet_cons, if_pos hpk,
        hall p (List.mem_cons_self _ _) hpk]
    · have hget' : jsGet m k = some e := by
        rw [jsGet_cons, if_neg hpk] at hget
        exact hget
      have hall' : ∀ p' ∈ m, p'.1 = k → p'.2 = e :=
        fun p' hp' => hall p' (List.mem_cons_of_mem _ hp')
      have hq' : ∀ p' ∈ m, p'.1 = k → q p' = true :=
        fun p' hp' => hq p' (List.mem_cons_of_mem _ hp')
      cases hqp : q p
      · simp only [Bool.false_eq_true, if_false]
        exact ih hall' hget' hq'
      · rw [if_pos rfl, jsGet_cons, if_neg hpk]
        exact ih hall' hget' hq'

theorem jsGet_filter_none {α β : Type} [DecidableEq α] (m : List (α × β)) (q : α × β → Bool)
    (k : α) (h : jsGet m k = none) : jsGet (m.filter q) k = none := by
  rw [jsGet_eq_none_iff] at h ⊢
  intro hmem
  apply h
  unfold keysOf at hmem ⊢
  rcases List.mem_map.mp hmem with ⟨p, hp, hpk⟩
  exact hpk ▸ List.mem_map_of_mem Prod.fst (List.mem_of_mem_filter hp)

theorem cacheResolve_foldl_young (l : List Nat) :
    ∀ (m : List (Str × TokenCacheEntry)) (key : Str) (e : TokenCacheEntry),
    (∀ p ∈ m, p.1 = key → p.2 = e) →
    jsGet m key = some e →
    (∀ s ∈ l, ¬ (e.createdAt < s - cacheTTL)) →
    jsGet (l.foldl cacheSweep m) key = some e := by
  induction l with
  | nil =>
    intro m key e _ hget _
    exact hget
  | cons s l ih =>
    intro m key e hall hget hl
    rw [List.foldl_cons]
    refine ih _ key e ?_ ?_ ?_
    · intro p hp hpk
      exact hall p (List.mem_of_mem_filter hp) hpk
    · refine jsGet_filter m _ key e hall hget ?_
      intro p hp hpk
      have hpe : p.2 = e := hall p hp hpk
      have := hl s (List.mem_cons_self _ _)
      simp [hpe, this]
    · intro s' hs'
      exact hl s' (List.mem_cons_of_mem _ hs')

theorem cacheResolve_foldl_none (l : List Nat) (m : List (Str × TokenCacheEntry))
    (key : Str) (h : jsGet m key = none) :
    jsGet (l.foldl cacheSweep m) key = none := by
  induction l generalizing m with
  | nil => exact h
  | cons s l ih =>
    rw [List.foldl_cons]
    exact ih _ (jsGet_filter_none m _ key h)

theorem jsGet_cacheSweep_none (m : List (Str × TokenCacheEntry)) (key : Str) (t0 s : Nat)
    (hall : ∀ p ∈ m, p.1 = key → p.2.createdAt = t0) (hold : t0 < s - cacheTTL) :
    jsGet (cacheSweep m s) key = none := by
  rw [jsGet_eq_none_iff]
  intro hmem
  unfold cacheSweep keysOf at hmem
  rcases List.mem_map.mp hmem with ⟨p, hp, hpk⟩
  have hcreated := hall p (List.mem_of_mem_filter hp) hpk
  have hfilter := List.of_mem_filter hp
  simp [hcreated, hold] at hfilter

theorem hall_foldl (l : List Nat) (m : List (Str × TokenCacheEntry)) (key : Str) (t0 : Nat)
    (hall : ∀ p ∈ m, p.1 = key → p.2.createdAt = t0) :
    ∀ p ∈ l.foldl cacheSweep m, p.1 = key → p.2.createdAt = t0 := by
  induction l generalizing m with
  | nil => exact hall
  | cons s l ih =>
    rw [List.foldl_cons]
    refine ih _ ?_
    intro p hp hpk
    exact hall p (List.mem_of_mem_filter hp) hpk

theorem mem_sweepTimes_le {s t : Nat} (h : s ∈ sweepTimes t) : s ≤ t := by
  unfold sweepTimes at h
  rcases List.mem_map.mp h with ⟨i, hi, rfl⟩
  rw [List.mem_range] at hi
  have h1 : i + 1 ≤ t / sweepPeriod := hi
  have h2 : (i + 1) * sweepPeriod ≤ t / sweepPeriod * sweepPeriod :=
    Nat.mul_le_mul_right _ h1
  have h3 : t / sweepPeriod * sweepPeriod ≤ t := Nat.div_mul_le_self t sweepPeriod
  omega

theorem cache_within_ttl (c : List (Str × TokenCacheEntry)) (key token display : Str)
    (t0 t : Nat) (ht : t < t0 + cacheTTL) :
    cacheResolve (cacheStateAt c key token display t0 t) key =
      some { token := token, display := display, createdAt := t0 } := by
  unfold cacheStateAt cacheResolve cachePut
  dsimp only
  refine cacheResolve_foldl_young _ _ key _ (jsSet_key_val _ key _) (jsGet_jsSet_self _ _ _) ?_
  intro s hs
  have hst : s ≤ t := mem_sweepTimes_le (List.mem_of_mem_filter hs)
  show ¬ (t0 < s - cacheTTL)
  omega

theorem cache_expired_resolve_none (c : List (Str × TokenCacheEntry))
    (key token display : Str) (t0 t : Nat) (ht : t0 + cacheTTL + sweepPeriod ≤ t) :
    cacheResolve (cacheStateAt c key token display t0 t) key = none := by
  unfold cacheStateAt cacheResolve cachePut
  dsimp only
  have hP : 0 < sweepPeriod := by norm_num [sweepPeriod]
  have hdm := Nat.div_add_mod (t0 + cacheTTL) sweepPeriod
  have hmod := Nat.mod_lt (t0 + cacheTTL) hP
  have hstar1 : t0 + cacheTTL < ((t0 + cacheTTL) / sweepPeriod + 1) * sweepPeriod := by
    have : ((t0 + cacheTTL) / sweepPeriod + 1) * sweepPeriod =
        sweepPeriod * ((t0 + cacheTTL) / sweepPeriod) + sweepPeriod := by ring
    omega
  have hstar2 : ((t0 + cacheTTL) / sweepPeriod + 1) * sweepPeriod ≤ t := by
    have : ((t0 + cacheTTL) / sweepPeriod + 1) * sweepPeriod =
        sweepPeriod * ((t0 + cacheTTL) / sweepPeriod) + sweepPeriod := by ring
    omega
  have hstarmem : ((t0 + cacheTTL) / sweepPeriod + 1) * sweepPeriod ∈ sweepTimes t := by
    unfold sweepTimes
    refine List.mem_map.mpr ⟨(t0 + cacheTTL) / sweepPeriod, ?_, rfl⟩
    rw [List.mem_range]
    have := (Nat.le_div_iff_mul_le hP).mpr hstar2
    omega
  have hstarpos : ¬ (((t0 + cacheTTL) / sweepPeriod + 1) * sweepPeriod ≤ t0) := by
    omega
  have hstarfil : ((t0 + cacheTTL) / sweepPeriod + 1) * sweepPeriod ∈
      (sweepTimes t).filter (fun s => ¬ (s ≤ t0)) := by
    rw [List.mem_filter]
    refine ⟨hstarmem, ?_⟩
    simpa using hstarpos
  obtain ⟨l₁, l₂, hsplit⟩ := List.append_of_mem hstarfil
  rw [hsplit, List.foldl_append, List.foldl_cons]
  apply cacheResolve_foldl_none
  apply jsGet_cacheSweep_none _ key t0
  · apply hall_foldl
    intro p hp hpk
    rw [jsSet_key_val _ key _ p hp hpk]
  · omega

/-! ## Claim verification -/

theorem browseRightPos_iter (k p : Nat) : browseRightPos^[k] p = p - k := by
  induction k generalizing p with
  | zero => simp
  | succ k ih =>
    rw [Function.iterate_succ_apply, ih]
    unfold browseRightPos
    omega

theorem getD_mem {l : Str} {n : Nat} (d : Char) (h : n < l.length) : l.getD n d ∈ l := by
  rw [List.getD_eq_getElem l d h]
  exact List.getElem_mem h

/-- C1 counterexample: the bijection claimed for arbitrary operation
sequences fails. After two open-batch operations supplying the same
explicit filename Foo (with distinct fresh tokens), Foo sits once in
the order list but both tokens map to it. -/
theorem c1_counterexample :
    ¬ indexBijection (runOps
      [.openBatch 1 "Foo".data "AAAAAAAAAAAA".data "t0".data,
       .openBatch 2 "Foo".data "BBBBBBBBBBBB".data "t0".data] emptySt).idx := by
  decide

/-- C1 (amended): starting from the empty index, after any sequence of
open-batch, append-item (whose auto-naming performs the rename),
finalize and delete-batch operations in which every open-batch supplies
a nonempty token not currently mapped by the index and a filename
neither listed in the order nor occupying a storage path on disk, and
every append-item happens while the index still maps its session's
token to the session's current filename, every filename in the order
list has exactly one token mapping to it and every token maps to a
filename occurring exactly once in the order list. -/
theorem c1_index_bijection (ops : List Op) (hv : ValidOps ops emptySt) :
    indexBijection (runOps ops emptySt).idx :=
  (goodSt_runOps ops emptySt goodSt_empty hv).1

/-- C1 witness: a concrete valid sequence exercising open, append with
auto-naming rename, finalize, delete and a second open. -/
theorem c1_index_bijection_witness :
    ValidOps
      [.openBatch 1 [] "AAAAAAAAAAAA".data "t0".data,
       .appendItem 1 { ftype := "document".data, caption := some "Movie: Foo [2020]".data }
         "t1".data,
       .finalize 1,
       .deleteBatch "AAAAAAAAAAAA".data,
       .openBatch 2 "Bar".data "BBBBBBBBBBBB".data "t2".data] emptySt ∧
    indexBijection (runOps
      [.openBatch 1 [] "AAAAAAAAAAAA".data "t0".data,
       .appendItem 1 { ftype := "document".data, caption := some "Movie: Foo [2020]".data }
         "t1".data,
       .finalize 1,
       .deleteBatch "AAAAAAAAAAAA".data,
       .openBatch 2 "Bar".data "BBBBBBBBBBBB".data "t2".data] emptySt).idx :=
  ⟨by decide, c1_index_bijection _ (by decide)⟩

/-- C3 counterexample: an entry stored at time 0 still resolves to its
token at 31 minutes, one minute after the 30-minute TTL has elapsed,
because resolution never checks age and the 30-minute sweep left the
then-fresh entry in place; this refutes the claim that a resolve at any
time after the TTL returns absent. -/
theorem c3_counterexample :
    cacheTTL < 31 * 60 * 1000 - 0 ∧
    (cacheResolve
        (cacheStateAt [] "kabc1234".data "AAAAAAAAAAAA".data "Foo".data 0 (31 * 60 * 1000))
        "kabc1234".data).map TokenCacheEntry.token = some "AAAAAAAAAAAA".data := by
  decide

/-- C3 (amended): for every put of a token, a resolve of the returned
key strictly within the 30-minute TTL returns the original token; after
the TTL has elapsed the entry is only removed by the next run of the
ten-minute sweep timer, so a resolve is guaranteed absent from time
t0 + TTL + sweep-period onward (and between expiry and that sweep the
stale token can still be returned, as the counterexample shows). -/
theorem c3_cache_ttl (c : List (Str × TokenCacheEntry)) (key token display : Str)
    (t0 t : Nat) :
    (t < t0 + cacheTTL →
      (cacheResolve (cacheStateAt c key token display t0 t) key).map TokenCacheEntry.token
        = some token) ∧
    (t0 + cacheTTL + sweepPeriod ≤ t →
      cacheResolve (cacheStateAt c key token display t0 t) key = none) :=
  ⟨fun ht => by rw [cache_within_ttl c key token display t0 t ht]; rfl,
   fun ht => cache_expired_resolve_none c key token display t0 t ht⟩

/-- C3 witness: a resolve at 29 minutes returns the token and a resolve
at 70 minutes is absent. -/
theorem c3_cache_ttl_witness :
    (cacheResolve
        (cacheStateAt [] "kabc1234".data "AAAAAAAAAAAA".data "Foo".data 0 (29 * 60 * 1000))
        "kabc1234".data).map TokenCacheEntry.token = some "AAAAAAAAAAAA".data ∧
    cacheResolve
        (cacheStateAt [] "kabc1234".data "AAAAAAAAAAAA".data "Foo".data 0 (70 * 60 * 1000))
        "kabc1234".data = none :=
  ⟨(c3_cache_ttl [] "kabc1234".data "AAAAAAAAAAAA".data "Foo".data 0 (29 * 60 * 1000)).1
      (by decide),
   (c3_cache_ttl [] "kabc1234".data "AAAAAAAAAAAA".data "Foo".data 0 (70 * 60 * 1000)).2
      (by decide)⟩

/-- C4: auto-naming is attempted at most once per authoring session:
an append to a session that already holds at least one item never
invokes the on-disk rename, leaves the index untouched, and keeps the
session filename, whether or not the first item's auto-naming
succeeded. -/
theorem c4_auto_naming_once (st : St) (chat : Nat) (meta : FileMeta) (now : Str)
    (cur : PendingBatch) (hcur : jsGet st.pendingBatches chat = some cur)
    (hne : cur.files ≠ []) :
    (addFileToPending st chat meta now).renamed = false ∧
    (addFileToPending st chat meta now).st.idx = st.idx ∧
    ∀ cur', jsGet (addFileToPending st chat meta now).st.pendingBatches chat = some cur' →
      cur'.filename = cur.filename := by
  have hlen : ¬ ((cur.files ++ [meta]).length = 1) := by
    intro h1
    rw [List.length_append, List.length_singleton] at h1
    have h0 : cur.files.length = 0 := by omega
    exact hne (List.length_eq_zero.mp h0)
  unfold addFileToPending
  rw [hcur]
  dsimp only
  cases hrb : readBatchFile st.disk cur.filename with
  | none =>
    dsimp only
    rw [if_neg (fun hand => hlen hand.2)]
    refine ⟨rfl, rfl, ?_⟩
    intro cur' hcur'
    rw [jsGet_jsSet_self] at hcur'
    cases hcur'
    rfl
  | some b =>
    dsimp only
    rw [if_neg (fun hand => hlen hand.2)]
    refine ⟨rfl, rfl, ?_⟩
    intro cur' hcur'
    rw [jsGet_jsSet_self] at hcur'
    cases hcur'
    rfl

/-- C4 witness: the second append to a session opened without a name
whose first item failed auto-naming (unsanitizable caption) does not
rename. -/
theorem c4_auto_naming_once_witness :
    (addFileToPending
      (addFileToPending (startPendingBatch emptySt 1 [] "AAAAAAAAAAAA".data "t0".data) 1
        { ftype := "document".data, caption := some "★★★".data } "t1".data).st
      1 { ftype := "text".data, text := some "hello".data } "t2".data).renamed = false :=
  (c4_auto_naming_once
    (addFileToPending (startPendingBatch emptySt 1 [] "AAAAAAAAAAAA".data "t0".data) 1
      { ftype := "document".data, caption := some "★★★".data } "t1".data).st
    1 { ftype := "text".data, text := some "hello".data } "t2".data
    { filename := "batch_AAAAAAAAAAAA_1".data, token := "AAAAAAAAAAAA".data,
      files := [{ ftype := "document".data, caption := some "★★★".data }],
      createdAt := "t0".data, autoNamed := false }
    (by decide) (by decide)).1

/-- C5: opening a batch with no explicit name and appending one
document item captioned with the movie label line yields a batch whose
display name is the raw first caption line and whose on-disk filename
is the sanitized slug Foo suffixed with the batch token. -/
theorem c5_first_item_naming :
    ((addFileToPending (startPendingBatch emptySt 1 [] "ABCDEFGH0123".data "t0".data) 1
        { ftype := "document".data, caption := some "Movie: Foo [2020]\nrest...".data }
        "t1".data).batch.map (fun b => (b.display_name, b.filename))) =
      some ("Movie: Foo [2020]".data, "Foo".data ++ '_' :: "ABCDEFGH0123".data) := by
  decide

/-- C6: browse navigation clamping. The browse-left update is the
clamped increment and the browse-right update the clamped decrement;
hence from the last position a step back is a no-op, N-1 consecutive
steps forward from the last position reach position zero, and a
further step forward stays at zero. -/
theorem c6_browse_clamping (orderLen pos : Nat) (hN : 0 < orderLen) :
    browseLeftPos orderLen pos = min (orderLen - 1) (pos + 1) ∧
    browseRightPos pos = max 0 (pos - 1) ∧
    browseLeftPos orderLen (orderLen - 1) = orderLen - 1 ∧
    browseRightPos^[orderLen - 1] (orderLen - 1) = 0 ∧
    browseRightPos 0 = 0 := by
  refine ⟨rfl, by simp [browseRightPos], ?_, ?_, rfl⟩
  · unfold browseLeftPos
    omega
  · rw [browseRightPos_iter]
    omega

/-- C6 witness: a snapshot of length three. -/
theorem c6_browse_clamping_witness :
    browseLeftPos 3 1 = min 2 2 ∧
    browseRightPos 1 = max 0 0 ∧
    browseLeftPos 3 2 = 2 ∧
    browseRightPos^[2] 2 = 0 ∧
    browseRightPos 0 = 0 :=
  c6_browse_clamping 3 1 (by decide)

/-- C7: sanitizeFilenameForDisk (the design document's
sanitizeForDisplay) maps the decorated movie label to the bare title,
maps the empty string and the all-symbols string to null, and in
general returns null exactly when the pipeline leaves the empty
string. -/
theorem c7_sanitize :
    sanitizeFilenameForDisk "🎬 Movie: Example Title [2025]".data = some "Example Title".data ∧
    sanitizeFilenameForDisk "".data = none ∧
    sanitizeFilenameForDisk "★★★".data = none ∧
    ∀ s : Str, sanitizeFilenameForDisk s = none ↔ sanitizePipeline s = [] := by
  refine ⟨by decide, by decide, by decide, ?_⟩
  intro s
  by_cases hs : s = []
  · subst hs
    decide
  · unfold sanitizeFilenameForDisk sanitizePipeline
    rw [if_neg hs]
    dsimp only
    split
    · simp_all
    · simp_all

/-- C8: the store layer is total on broken storage: readIndex returns
the default empty index when the record is missing or unparsable, and
the batch read returns absent instead of propagating an error. -/
theorem c8_read_defaults (si : StoredRecord Index) (sb : StoredRecord Batch)
    (hi : si = .missing ∨ si = .corrupt) (hb : sb = .missing ∨ sb = .corrupt) :
    readIndex si = { tokens := [], order := [] } ∧ readBatchStored sb = none := by
  constructor
  · rcases hi with rfl | rfl <;> rfl
  · rcases hb with rfl | rfl <;> rfl

/-- C8 witness: missing index record and corrupt batch record. -/
theorem c8_read_defaults_witness :
    readIndex (.missing : StoredRecord Index) = { tokens := [], order := [] } ∧
    readBatchStored (.corrupt : StoredRecord Batch) = none :=
  c8_read_defaults .missing .corrupt (Or.inl rfl) (Or.inr rfl)

/-- C9: for every random byte source, generateToken at its default
length returns exactly twelve characters, each drawn from the fixed
36-character alphabet of capital letters and digits. -/
theorem c9_generateToken (rnd : Nat → Nat) :
    (generateToken rnd).length = 12 ∧ ∀ c ∈ generateToken rnd, c ∈ tokenAlphabet := by
  constructor
  · simp [generateToken]
  · intro c hc
    unfold generateToken at hc
    rcases List.mem_map.mp hc with ⟨i, _, rfl⟩
    refine getD_mem 'A' (Nat.mod_lt _ ?_)
    decide

/-- C2 counterexample: with the provisional name batch_AAAAAAAAAAAA and
a first item whose derived label fails sanitization, the batch does not
keep its provisional filename: the fallback rename with base batch
collides with the batch's own file, so the collision loop renames it to
batch_AAAAAAAAAAAA_1 on disk and in the index. -/
theorem c2_counterexample :
    sanitizeFilenameForDisk "★★★".data = none ∧
    (addFileToPending (startPendingBatch emptySt 1 [] "AAAAAAAAAAAA".data "t0".data) 1
        { ftype := "document".data, caption := some "★★★".data } "t1".data).st.idx.tokens =
      [("AAAAAAAAAAAA".data, "batch_AAAAAAAAAAAA_1".data)] ∧
    "batch_AAAAAAAAAAAA_1".data ≠ "batch_AAAAAAAAAAAA".data := by
  decide

theorem freshRenameLoop_succ (disk : List (Str × Batch)) (base token : Str)
    (fuel i : Nat) :
    freshRenameLoop disk base token (fuel + 1) i =
      if jsGet disk (filenameToPath (renameCandidate base token i)) = none
      then renameCandidate base token i
      else freshRenameLoop disk base token fuel (i + 1) := rfl

/-- C2 (amended): when auto-naming is triggered by the first appended
item of a session holding its provisional token-based filename
batch_(token) and sanitization of the derived label fails, the rename
fallback uses the base batch, whose first candidate batch_(token)
collides with the session's own file, so the batch is renamed to
batch_(token)_1 on disk and in the index, its display name becomes the
raw unsanitizable label (trimmed, at most 200 characters), and the
pending auto-name flag is cleared. -/
theorem c2_sanitize_failure_renames (st : St) (chat : Nat) (meta : FileMeta) (now : Str)
    (cur : PendingBatch) (b : Batch) (detected : DetectedName)
    (hcur : jsGet st.pendingBatches chat = some cur)
    (hauto : cur.autoNamed = true)
    (hfirst : cur.files = [])
    (hdet : detectNameFromFile meta = some detected)
    (hsan : detected.sanitized = none)
    (hraw : detected.rawLine ≠ [])
    (hprov : cur.filename = "batch_".data ++ cur.token)
    (hb : readBatchFile st.disk cur.filename = some b)
    (hfree1 : jsGet st.disk
      (filenameToPath ("batch_".data ++ cur.token ++ "_1".data)) = none)
    (htne : cur.token ≠ []) :
    (addFileToPending st chat meta now).renamed = true ∧
    jsGet (addFileToPending st chat meta now).st.idx.tokens cur.token =
      some ("batch_".data ++ cur.token ++ "_1".data) ∧
    (∃ cur', jsGet (addFileToPending st chat meta now).st.pendingBatches chat = some cur' ∧
      cur'.filename = "batch_".data ++ cur.token ++ "_1".data ∧ cur'.autoNamed = false) ∧
    (∃ b', readBatchFile (addFileToPending st chat meta now).st.disk
        ("batch_".data ++ cur.token ++ "_1".data) = some b' ∧
      b'.display_name = (jsTrim detected.rawLine).take 200 ∧
      b'.filename = "batch_".data ++ cur.token ++ "_1".data) := by
  have hcand : renameCandidate "batch".data cur.token 1 =
      "batch_".data ++ cur.token ++ "_1".data := by
    unfold renameCandidate
    have h1 : Nat.toDigits 10 1 = ['1'] := by decide
    rw [h1]
    simp
  have hfirstname : ("batch".data ++ '_' :: cur.token) = cur.filename := by
    rw [hprov]
    rfl
  have hlenne : filenameToPath ("batch_".data ++ cur.token ++ "_1".data) ≠
      filenameToPath cur.filename := by
    intro hh
    have hlen := congrArg List.length hh
    rw [hprov] at hlen
    simp only [filenameToPath, List.length_append, List.length_map] at hlen
    simp at hlen
  have hb1 : readBatchFile
      (jsSet st.disk (filenameToPath cur.filename) { b with files := b.files ++ [meta] })
      cur.filename = some { b with files := b.files ++ [meta] } := by
    unfold readBatchFile
    exact jsGet_jsSet_self _ _ _
  have hfreshval : freshRenameName
      (jsSet st.disk (filenameToPath cur.filename) { b with files := b.files ++ [meta] })
      "batch".data cur.token = "batch_".data ++ cur.token ++ "_1".data := by
    unfold freshRenameName
    dsimp only
    rw [if_neg (by decide : ¬ (("batch".data : Str) = []))]
    rw [hfirstname]
    have hocc : ¬ (jsGet
        (jsSet st.disk (filenameToPath cur.filename) { b with files := b.files ++ [meta] })
        (filenameToPath cur.filename) = none) := by
      rw [jsGet_jsSet_self]
      intro h
      cases h
    rw [if_neg hocc, freshRenameLoop_succ]
    rw [if_pos ?_]
    · exact hcand
    · rw [hcand, jsGet_jsSet_ne _ _ _ _ hlenne]
      exact hfree1
  unfold addFileToPending
  rw [hcur]
  dsimp only
  rw [hb]
  dsimp only
  rw [if_pos (And.intro hauto (by rw [hfirst]; rfl))]
  rw [hdet]
  dsimp only
  rw [hsan]
  rw [show (Option.getD (none : Option Str) "batch".data) = "batch".data from rfl]
  rw [if_neg hraw]
  unfold renameBatchFileOnDisk writeBatchFile
  dsimp only
  rw [hfreshval, hb1]
  dsimp only
  rw [if_neg htne]
  refine ⟨rfl, ?_, ?_, ?_⟩
  · exact jsGet_jsSet_self _ _ _
  · have hx := jsGet_jsSet_self st.pendingBatches chat
      (PendingBatch.mk ("batch_".data ++ cur.token ++ "_1".data) cur.token
        (cur.files ++ [meta]) cur.createdAt false)
    exact ⟨_, hx, rfl, rfl⟩
  · rw [if_neg hraw]
    refine ⟨Batch.mk b.token ("batch_".data ++ cur.token ++ "_1".data) b.adminId
        b.createdAt (b.files ++ [meta]) b.ratings (List.take 200 (jsTrim detected.rawLine)),
      ?_, rfl, rfl⟩
    unfold readBatchFile
    rw [jsGet_jsDel_ne _ _ _ hlenne, jsGet_jsSet_self]

theorem c2_sanitize_failure_renames_witness :
    (addFileToPending (startPendingBatch emptySt 1 [] "AAAAAAAAAAAA".data "t0".data) 1
        { ftype := "document".data, caption := some "★★★".data } "t1".data).renamed = true ∧
    jsGet (addFileToPending (startPendingBatch emptySt 1 [] "AAAAAAAAAAAA".data "t0".data) 1
        { ftype := "document".data, caption := some "★★★".data } "t1".data).st.idx.tokens
        ("AAAAAAAAAAAA".data : Str) =
      some ("batch_".data ++ "AAAAAAAAAAAA".data ++ "_1".data) ∧
    (∃ cur', jsGet (addFileToPending (startPendingBatch emptySt 1 [] "AAAAAAAAAAAA".data
          "t0".data) 1
        { ftype := "document".data, caption := some "★★★".data } "t1".data).st.pendingBatches 1 =
        some cur' ∧
      cur'.filename = "batch_".data ++ "AAAAAAAAAAAA".data ++ "_1".data ∧
      cur'.autoNamed = false) ∧
    (∃ b', readBatchFile (addFileToPending (startPendingBatch emptySt 1 [] "AAAAAAAAAAAA".data
          "t0".data) 1
        { ftype := "document".data, caption := some "★★★".data } "t1".data).st.disk
        ("batch_".data ++ "AAAAAAAAAAAA".data ++ "_1".data) = some b' ∧
      b'.display_name = (jsTrim ("★★★".data : Str)).take 200 ∧
      b'.filename = "batch_".data ++ "AAAAAAAAAAAA".data ++ "_1".data) :=
  c2_sanitize_failure_renames
    (startPendingBatch emptySt 1 [] "AAAAAAAAAAAA".data "t0".data) 1
    { ftype := "document".data, caption := some "★★★".data } "t1".data
    { filename := "batch_AAAAAAAAAAAA".data, token := "AAAAAAAAAAAA".data, files := [],
      createdAt := "t0".data, autoNamed := true }
    { token := "AAAAAAAAAAAA".data, filename := "batch_AAAAAAAAAAAA".data, adminId := 1,
      createdAt := "t0".data, files := [], ratings := [],
      display_name := "batch_AAAAAAAAAAAA".data }
    { rawLine := "★★★".data, sanitized := none }
    (by decide) (by decide) (by decide) (by decide) (by decide) (by decide)
    (by decide) (by decide) (by decide) (by decide)

theorem keyFilter_nil_of_not_mem {α β : Type} [DecidableEq α] {m : List (α × β)} {k : α}
    (h : k ∉ keysOf m) : m.filter (fun p => decide (p.1 = k)) = [] := by
  rw [List.filter_eq_nil_iff]
  intro p hp
  simp only [decide_eq_true_eq]
  intro hpe
  exact h (hpe ▸ List.mem_map_of_mem Prod.fst hp)

theorem keyFilter_jsSet_length_one {α β : Type} [DecidableEq α] (m : List (α × β)) (k : α)
    (v : β) (hnd : (keysOf m).Nodup) :
    ((jsSet m k v).filter (fun p => decide (p.1 = k))).length = 1 := by
  cases hget : jsGet m k with
  | none =>
    have hk : k ∉ keysOf m := (jsGet_eq_none_iff m k).mp hget
    rw [jsSet_of_not_mem_keys hk, List.filter_append, keyFilter_nil_of_not_mem hk]
    simp
  | some w =>
    rcases jsSet_decomp hget hnd v with ⟨m₁, m₂, _, h1, h2, hset, _⟩
    rw [hset, List.filter_append, keyFilter_nil_of_not_mem h1, List.filter_cons,
      keyFilter_nil_of_not_mem h2]
    simp

/-- C10: the rate operation, for a resolvable token, writes exactly one
ratings entry keyed by the calling user (overwriting any previous rating
that user gave this batch) and leaves every other field of the batch
record, every other user's rating, every other disk record, the index
and the pending sessions unchanged. -/
theorem c10_rate_frame (st : St) (token : Str) (uid score : Nat) (ts : Str)
    (f : Str) (b : Batch)
    (hmap : jsGet st.idx.tokens token = some f)
    (hb : readBatchFile st.disk f = some b)
    (hnd : (keysOf b.ratings).Nodup) :
    ∃ b', readBatchFile (rateBatch st token uid score ts).disk f = some b' ∧
      b'.token = b.token ∧ b'.filename = b.filename ∧
      b'.display_name = b.display_name ∧ b'.files = b.files ∧
      b'.createdAt = b.createdAt ∧ b'.adminId = b.adminId ∧
      jsGet b'.ratings uid = some { score := score, ts := ts } ∧
      (∀ u, u ≠ uid → jsGet b'.ratings u = jsGet b.ratings u) ∧
      (b'.ratings.filter (fun p => decide (p.1 = uid))).length = 1 ∧
      (∀ p, p ≠ filenameToPath f →
        jsGet (rateBatch st token uid score ts).disk p = jsGet st.disk p) ∧
      (rateBatch st token uid score ts).idx = st.idx ∧
      (rateBatch st token uid score ts).pendingBatches = st.pendingBatches := by
  unfold rateBatch
  rw [hmap]
  dsimp only
  rw [hb]
  dsimp only
  refine ⟨{ b with ratings := jsSet b.ratings uid { score := score, ts := ts } },
    ?_, rfl, rfl, rfl, rfl, rfl, rfl, ?_, ?_, ?_, ?_, rfl, rfl⟩
  · unfold readBatchFile writeBatchFile
    exact jsGet_jsSet_self _ _ _
  · exact jsGet_jsSet_self _ _ _
  · intro u hu
    exact jsGet_jsSet_ne _ _ _ _ hu
  · exact keyFilter_jsSet_length_one _ _ _ hnd
  · intro p hp
    unfold writeBatchFile
    exact jsGet_jsSet_ne _ _ _ _ hp

theorem c10_rate_frame_witness :
    ∃ b', readBatchFile (rateBatch c10St "TOK123456789".data 7 4 "t2".data).disk
        ("file1".data : Str) = some b' ∧
      b'.token = c10Batch.token ∧ b'.filename = c10Batch.filename ∧
      b'.display_name = c10Batch.display_name ∧ b'.files = c10Batch.files ∧
      b'.createdAt = c10Batch.createdAt ∧ b'.adminId = c10Batch.adminId ∧
      jsGet b'.ratings 7 = some { score := 4, ts := "t2".data } ∧
      (∀ u, u ≠ 7 → jsGet b'.ratings u = jsGet c10Batch.ratings u) ∧
      (b'.ratings.filter (fun p => decide (p.1 = 7))).length = 1 ∧
      (∀ p, p ≠ filenameToPath ("file1".data : Str) →
        jsGet (rateBatch c10St "TOK123456789".data 7 4 "t2".data).disk p =
          jsGet c10St.disk p) ∧
      (rateBatch c10St "TOK123456789".data 7 4 "t2".data).idx = c10St.idx ∧
      (rateBatch c10St "TOK123456789".data 7 4 "t2".data).pendingBatches =
        c10St.pendingBatches :=
  c10_rate_frame c10St "TOK123456789".data 7 4 "t2".data "file1".data c10Batch
    (by decide) (by decide) (by decide)

end CloudBot
